import Mathlib

/-!
Verification development for the regorus compile-and-execute core
(`Program` + `Rvm`), as exposed through the C/C++ bindings
(`src/bindings/cpp/regorus.hpp`, `src/bindings/cpp/regorus_value.hpp`,
`src/bindings/c/rvm_tests.c`, `src/bindings/cpp/rvm_tests.cpp`).

The Rust core that implements `Value`, `Program` serialization and the
`Rvm` virtual machine is not part of the sources available here; only its
C/C++ declarations, wrappers and tests are.  Following the specification
(spec.md sections 3, 4.2, 4.3), the data model, the bytecode program, its
binary encoding and the virtual machine are therefore modelled from the
spec, and the claimed properties are proved about that model.
-/

namespace Regorus

/-- Modelled from the spec: (section 3, "Value"): the tagged runtime data
model used for constants, stack operands and documents.  The Rust
implementation of `Value` is not among the sources; this model keeps the
variants `Null | Bool | Int | String | Array | Object | Set`.  `Float` is
omitted: no verified claim exercises floating point, which does not
translate to this embedding.  Objects are key/value sequences whose
operations keep keys unique under structural equality; sets are element
sequences deduplicated by structural equality. -/
inductive Val where
  | null
  | bool (b : Bool)
  | int (i : Int)
  | str (s : String)
  | arr (xs : List Val)
  | obj (kvs : List (Val × Val))
  | set (xs : List Val)

mutual
/-- Boolean structural equality on values (mutually with lists of values
and key/value lists), used to derive decidable equality. -/
def Val.beqv : Val → Val → Bool
  | .null, .null => true
  | .bool a, .bool b => a == b
  | .int a, .int b => a == b
  | .str a, .str b => a == b
  | .arr a, .arr b => Val.beqList a b
  | .obj a, .obj b => Val.beqKVList a b
  | .set a, .set b => Val.beqList a b
  | _, _ => false

def Val.beqList : List Val → List Val → Bool
  | [], [] => true
  | a :: as, b :: bs => Val.beqv a b && Val.beqList as bs
  | _, _ => false

def Val.beqKVList : List (Val × Val) → List (Val × Val) → Bool
  | [], [] => true
  | (ka, va) :: as, (kb, vb) :: bs =>
      Val.beqv ka kb && Val.beqv va vb && Val.beqKVList as bs
  | _, _ => false
end

mutual
theorem Val.beqv_refl : ∀ a : Val, Val.beqv a a = true
  | .null => rfl
  | .bool a => by simp [Val.beqv]
  | .int a => by simp [Val.beqv]
  | .str a => by simp [Val.beqv]
  | .arr a => by simp [Val.beqv, Val.beqList_refl a]
  | .obj a => by simp [Val.beqv, Val.beqKVList_refl a]
  | .set a => by simp [Val.beqv, Val.beqList_refl a]

theorem Val.beqList_refl : ∀ as : List Val, Val.beqList as as = true
  | [] => rfl
  | a :: as => by simp [Val.beqList, Val.beqv_refl a, Val.beqList_refl as]

theorem Val.beqKVList_refl : ∀ as : List (Val × Val), Val.beqKVList as as = true
  | [] => rfl
  | (k, v) :: as => by
      simp [Val.beqKVList, Val.beqv_refl k, Val.beqv_refl v, Val.beqKVList_refl as]
end

mutual
theorem Val.beqv_eq : ∀ a b : Val, Val.beqv a b = true → a = b
  | .null, .null, _ => rfl
  | .bool a, .bool b, h => by simp [Val.beqv] at h; simp [h]
  | .int a, .int b, h => by simp [Val.beqv] at h; simp [h]
  | .str a, .str b, h => by simp [Val.beqv] at h; simp [h]
  | .arr a, .arr b, h => by simp [Val.beqv] at h; simp [Val.beqList_eq a b h]
  | .obj a, .obj b, h => by simp [Val.beqv] at h; simp [Val.beqKVList_eq a b h]
  | .set a, .set b, h => by simp [Val.beqv] at h; simp [Val.beqList_eq a b h]

theorem Val.beqList_eq : ∀ as bs : List Val, Val.beqList as bs = true → as = bs
  | [], [], _ => rfl
  | a :: as, b :: bs, h => by
      simp only [Val.beqList, Bool.and_eq_true] at h
      simp [Val.beqv_eq a b h.1, Val.beqList_eq as bs h.2]
  | [], _ :: _, h => by simp [Val.beqList] at h
  | _ :: _, [], h => by simp [Val.beqList] at h

theorem Val.beqKVList_eq :
    ∀ as bs : List (Val × Val), Val.beqKVList as bs = true → as = bs
  | [], [], _ => rfl
  | (ka, va) :: as, (kb, vb) :: bs, h => by
      simp only [Val.beqKVList, Bool.and_eq_true] at h
      simp [Val.beqv_eq ka kb h.1.1, Val.beqv_eq va vb h.1.2,
        Val.beqKVList_eq as bs h.2]
  | [], _ :: _, h => by simp [Val.beqKVList] at h
  | _ :: _, [], h => by simp [Val.beqKVList] at h
end

instance : DecidableEq Val := fun a b =>
  if h : Val.beqv a b = true then .isTrue (Val.beqv_eq a b h)
  else .isFalse (fun he => h (he ▸ Val.beqv_refl a))

/-- Look up a key in a key/value sequence by structural equality, returning
the first (and, under the uniqueness invariant, only) binding. -/
def kvLookup (kvs : List (Val × Val)) (k : Val) : Option Val :=
  match kvs with
  | [] => none
  | (k', v) :: rest => if k' = k then some v else kvLookup rest k

/-- Insert a binding into a key/value sequence: a binding under a
structurally equal key is overwritten in place, otherwise the new binding
is appended, preserving insertion order. -/
def kvInsert (kvs : List (Val × Val)) (k v : Val) : List (Val × Val) :=
  match kvs with
  | [] => [(k, v)]
  | (k', v') :: rest =>
      if k' = k then (k, v) :: rest else (k', v') :: kvInsert rest k v

/-- Keys of a key/value sequence, in order. -/
def kvKeys (kvs : List (Val × Val)) : List Val := kvs.map Prod.fst

/-- Modelled from the spec: (section 3): `Object` key uniqueness under
structural equality — the invariant every object value maintains. -/
def KeysUnique (kvs : List (Val × Val)) : Prop := (kvKeys kvs).Nodup

instance (kvs : List (Val × Val)) : Decidable (KeysUnique kvs) :=
  inferInstanceAs (Decidable (kvKeys kvs).Nodup)

/-- Modelled from the spec: (`Value::object_get` in the bindings): look up a
key in an object value; `none` on a non-object or a missing key. -/
def Val.object_get (o : Val) (k : Val) : Option Val :=
  match o with
  | .obj kvs => kvLookup kvs k
  | _ => none

/-- Modelled from the spec: (`Value::object_insert` in the bindings): insert
a key/value pair into an object value, overwriting a structurally equal
key; `none` (an error in the bindings) on a non-object. -/
def Val.object_insert (o : Val) (k v : Val) : Option Val :=
  match o with
  | .obj kvs => some (.obj (kvInsert kvs k v))
  | _ => none

theorem kvLookup_kvInsert_self (kvs : List (Val × Val)) (k v : Val) :
    kvLookup (kvInsert kvs k v) k = some v := by
  induction kvs with
  | nil => simp [kvInsert, kvLookup]
  | cons hd tl ih =>
    obtain ⟨k', v'⟩ := hd
    by_cases hk : k' = k
    · simp [kvInsert, hk, kvLookup]
    · simp [kvInsert, hk, kvLookup, ih]

theorem kvKeys_kvInsert (kvs : List (Val × Val)) (k v : Val) :
    kvKeys (kvInsert kvs k v) =
      if k ∈ kvKeys kvs then kvKeys kvs else kvKeys kvs ++ [k] := by
  induction kvs with
  | nil => simp [kvInsert, kvKeys]
  | cons hd tl ih =>
    obtain ⟨k', v'⟩ := hd
    by_cases hk : k' = k
    · simp [kvInsert, hk, kvKeys]
    · have hne : ¬ k = k' := fun h => hk h.symm
      simp only [kvInsert, if_neg hk, kvKeys, List.map_cons]
      simp only [kvKeys] at ih
      rw [ih]
      by_cases hmem : k ∈ tl.map Prod.fst <;>
        simp [hmem, hne, List.mem_cons]

theorem kvInsert_length_of_mem (kvs : List (Val × Val)) (k v : Val)
    (h : k ∈ kvKeys kvs) : (kvInsert kvs k v).length = kvs.length := by
  induction kvs with
  | nil => simp [kvKeys] at h
  | cons hd tl ih =>
    obtain ⟨k', v'⟩ := hd
    by_cases hk : k' = k
    · simp [kvInsert, hk]
    · have : k ∈ kvKeys tl := by
        simp only [kvKeys, List.map_cons, List.mem_cons] at h
        rcases h with h | h
        · exact absurd h.symm hk
        · exact h
      simp [kvInsert, hk, ih this]

theorem keysUnique_kvInsert (kvs : List (Val × Val)) (k v : Val)
    (h : KeysUnique kvs) : KeysUnique (kvInsert kvs k v) := by
  unfold KeysUnique at h ⊢
  rw [kvKeys_kvInsert]
  by_cases hmem : k ∈ kvKeys kvs
  · simpa [hmem]
  · simp only [if_neg hmem]
    simp [List.nodup_append, h, hmem]

mutual
/-- Modelled from the spec: (`Value::to_json` in the bindings): a JSON-style
textual rendering of a value, used to state "serializes to identical JSON"
properties.  String escaping is not modelled; no claim depends on it. -/
def Val.to_json : Val → String
  | .null => "null"
  | .bool b => cond b "true" "false"
  | .int i => toString i
  | .str s => "\"" ++ s ++ "\""
  | .arr xs => "[" ++ Val.jsonSeq xs ++ "]"
  | .obj kvs => "\x7b" ++ Val.jsonFields kvs ++ "\x7d"
  | .set xs => "<" ++ Val.jsonSeq xs ++ ">"

def Val.jsonSeq : List Val → String
  | [] => ""
  | [v] => Val.to_json v
  | v :: rest => Val.to_json v ++ "," ++ Val.jsonSeq rest

def Val.jsonFields : List (Val × Val) → String
  | [] => ""
  | [(k, v)] => Val.to_json k ++ ":" ++ Val.to_json v
  | (k, v) :: rest => Val.to_json k ++ ":" ++ Val.to_json v ++ "," ++ Val.jsonFields rest
end

/-- Modelled from the spec: together with the bindings layer (`regorus_value.hpp`),
each FFI `Value` handle owns one independent value; handles are raw
pointers into the host heap.  The heap is modelled as a list of value
cells, a handle as an index into it, and allocation as appending a cell.
Mutating operations rewrite the owning cell only. -/
structure Store where
  cells : List Val

/-- Allocate a fresh cell holding `v`, returning the new store and the
fresh handle. -/
def Store.alloc (s : Store) (v : Val) : Store × Nat :=
  (⟨s.cells ++ [v]⟩, s.cells.length)

/-- Read the value owned by a handle. -/
def Store.read (s : Store) (a : Nat) : Option Val := s.cells[a]?

/-- Modelled from the spec: (`Value::clone` in the bindings): produce a deep
copy of the value owned by `a` in a freshly allocated cell, returning the
new store and the clone's handle. -/
def Store.clone (s : Store) (a : Nat) : Option (Store × Nat) :=
  (s.read a).map s.alloc

/-- Render the value owned by a handle as JSON text. -/
def Store.to_json (s : Store) (a : Nat) : Option String :=
  (s.read a).map Val.to_json

/-- Modelled from the spec: (`Value::object_insert` through a handle):
mutate the object owned by `a` in place, inserting `(k, v)`. -/
def Store.object_insert_at (s : Store) (a : Nat) (k v : Val) : Option Store :=
  (s.read a).bind fun o => (o.object_insert k v).map fun o' => ⟨s.cells.set a o'⟩

/-- Look up a dotted path of string keys inside a document value. -/
def Val.at_path : Val → List String → Option Val
  | v, [] => some v
  | v, k :: rest =>
    match v.object_get (.str k) with
    | some v' => v'.at_path rest
    | none => none

/-- Index a container value by a key value: object lookup by structural
equality, array lookup by non-negative integer position; anything else is
undefined (`none`). -/
def Val.index_val (c k : Val) : Option Val :=
  match c with
  | .obj kvs => kvLookup kvs k
  | .arr xs =>
    match k with
    | .int i => if 0 ≤ i then xs[i.toNat]? else none
    | _ => none
  | _ => none

/-- Elements a collection value yields under iteration; `none` for
non-collections. -/
def Val.iterElems : Val → Option (List Val)
  | .arr xs => some xs
  | .set xs => some xs
  | _ => none

/-- Modelled from the spec: (section 4.3): the bytecode vocabulary executed
by the `Rvm`, restricted to the instruction families the verified claims
exercise: constant push, document loads, indexing, iteration (with
backtracking jump targets), comparison, arithmetic and builtin invocation
(`count`), stack maintenance, returns, and the host-await builtin.  Rule
bodies compile to sequential instructions whose failure operand is an
early-exit jump target.  The host-await instruction carries the input path
of its key argument and its topic. -/
inductive Instr where
  | const (ci : Nat)
  | loadInput
  | loadData
  | index (fail : Nat)
  | eq (fail : Nat)
  | gt (fail : Nat)
  | add (fail : Nat)
  | count (fail : Nat)
  | iterStart
  | iterNext (exit : Nat)
  | popn (n : Nat)
  | jump (t : Nat)
  | ret
  | retNone
  | hostAwait (keyPath : List String) (topic : String)
deriving DecidableEq

/-- Modelled from the spec: (section 3, "Program"): one entry-point-table
row, mapping a dotted path to an instruction address; the row's position in
the table is its index. -/
structure EntryPoint where
  path : String
  addr : Nat
deriving DecidableEq

/-- Modelled from the spec: (section 3, "Program"): the immutable compiled
artifact — a constant pool of interned values, a linear instruction array
and an entry-point table.  Module provenance metadata is omitted: it feeds
only coverage and disassembly, which no verified claim exercises. -/
structure Program where
  consts : List Val
  instrs : List Instr
  entries : List EntryPoint
deriving DecidableEq

/-- Modelled from the spec: (section 4.3): the two execution modes; a
host-await builtin is a hard error in `normal` mode and suspends the VM in
`suspendable` mode. -/
inductive ExecMode where
  | normal
  | suspendable
deriving DecidableEq

/-- Modelled from the spec: (section 4.3): the await descriptor `{key,
topic}` exposed while suspended. -/
structure AwaitDesc where
  key : Val
  topic : String
deriving DecidableEq

/-- Modelled from the spec: (section 7): the execution-error taxonomy the
verified claims distinguish. -/
inductive ExecErr where
  | budgetExceeded
  | builtinError
  | invalidConstIdx
  | invalidInstrAddr
  | stackUnderflow
  | typeError
  | entryNotFound
  | awaitNotSuspendable
deriving DecidableEq

/-- Modelled from the spec: (section 3, "Rvm execution context"): the
mutable per-execution machine state — instruction pointer, operand stack
and executed-instruction counter.  A captured continuation is a value of
this same type (plus the pending await descriptor). -/
structure MachState where
  ip : Nat
  stack : List Val
  instrCount : Nat
deriving DecidableEq

/-- Result of executing one instruction. -/
inductive StepRes where
  | next (st : MachState)
  | done (res : Option Val)
  | suspend (k : MachState) (d : AwaitDesc)
  | err (e : ExecErr)
deriving DecidableEq

/-- Result of running an execution to quiescence: a decision value (`none`
encodes an undefined result, which is not an error), a suspension carrying
the continuation and the await descriptor, a fatal execution error, or
fuel exhaustion of the model interpreter. -/
inductive Outcome where
  | done (res : Option Val)
  | suspended (k : MachState) (d : AwaitDesc)
  | error (e : ExecErr)
  | outOfFuel
deriving DecidableEq

/-- Modelled from the spec: (sections 4.3, 6): one `Rvm` instance's
configuration — the loaded program, bound data and input documents,
execution mode, strict-builtin-error policy (`set_strict_builtin_errors`)
and optional instruction budget (`set_max_instructions`). -/
structure Rvm where
  prog : Program
  data : Val
  input : Val
  mode : ExecMode
  strictBuiltinErrors : Bool
  maxInstructions : Option Nat
deriving DecidableEq

/-- Modelled from the spec: (section 4.3): the effect of one decoded
instruction on the machine state.  Failure operands are early-exit jump
targets; builtin runtime errors respect the strict/lenient policy; a
host-await suspends in suspendable mode (capturing the continuation whose
instruction pointer already names the next instruction) and is a hard
error in normal mode. -/
def stepInstr (r : Rvm) (st : MachState) (ins : Instr) : StepRes :=
  match ins with
  | .const ci =>
    match r.prog.consts[ci]? with
    | some v => .next ⟨st.ip + 1, v :: st.stack, st.instrCount + 1⟩
    | none => .err .invalidConstIdx
  | .loadInput => .next ⟨st.ip + 1, r.input :: st.stack, st.instrCount + 1⟩
  | .loadData => .next ⟨st.ip + 1, r.data :: st.stack, st.instrCount + 1⟩
  | .index fail =>
    match st.stack with
    | k :: c :: rest =>
      match Val.index_val c k with
      | some v => .next ⟨st.ip + 1, v :: rest, st.instrCount + 1⟩
      | none => .next ⟨fail, rest, st.instrCount + 1⟩
    | _ => .err .stackUnderflow
  | .eq fail =>
    match st.stack with
    | b :: a :: rest =>
      if a = b then .next ⟨st.ip + 1, rest, st.instrCount + 1⟩
      else .next ⟨fail, rest, st.instrCount + 1⟩
    | _ => .err .stackUnderflow
  | .gt fail =>
    match st.stack with
    | .int b :: .int a :: rest =>
      if b < a then .next ⟨st.ip + 1, rest, st.instrCount + 1⟩
      else .next ⟨fail, rest, st.instrCount + 1⟩
    | _ :: _ :: rest =>
      if r.strictBuiltinErrors then .err .builtinError
      else .next ⟨fail, rest, st.instrCount + 1⟩
    | _ => .err .stackUnderflow
  | .add fail =>
    match st.stack with
    | .int b :: .int a :: rest => .next ⟨st.ip + 1, .int (a + b) :: rest, st.instrCount + 1⟩
    | _ :: _ :: rest =>
      if r.strictBuiltinErrors then .err .builtinError
      else .next ⟨fail, rest, st.instrCount + 1⟩
    | _ => .err .stackUnderflow
  | .count fail =>
    match st.stack with
    | .arr xs :: rest => .next ⟨st.ip + 1, .int xs.length :: rest, st.instrCount + 1⟩
    | .set xs :: rest => .next ⟨st.ip + 1, .int xs.length :: rest, st.instrCount + 1⟩
    | .obj kvs :: rest => .next ⟨st.ip + 1, .int kvs.length :: rest, st.instrCount + 1⟩
    | .str s :: rest => .next ⟨st.ip + 1, .int s.length :: rest, st.instrCount + 1⟩
    | _ :: rest =>
      if r.strictBuiltinErrors then .err .builtinError
      else .next ⟨fail, rest, st.instrCount + 1⟩
    | _ => .err .stackUnderflow
  | .iterStart =>
    match st.stack with
    | c :: rest => .next ⟨st.ip + 1, .int 0 :: c :: rest, st.instrCount + 1⟩
    | _ => .err .stackUnderflow
  | .iterNext exit =>
    match st.stack with
    | .int n :: c :: rest =>
      match c.iterElems with
      | some xs =>
        match xs[n.toNat]? with
        | some x => .next ⟨st.ip + 1, x :: .int (n + 1) :: c :: rest, st.instrCount + 1⟩
        | none => .next ⟨exit, rest, st.instrCount + 1⟩
      | none => .next ⟨exit, rest, st.instrCount + 1⟩
    | _ :: _ :: _ => .err .typeError
    | _ => .err .stackUnderflow
  | .popn n => .next ⟨st.ip + 1, st.stack.drop n, st.instrCount + 1⟩
  | .jump t => .next ⟨t, st.stack, st.instrCount + 1⟩
  | .ret =>
    match st.stack with
    | v :: _ => .done (some v)
    | [] => .err .stackUnderflow
  | .retNone => .done none
  | .hostAwait keyPath topic =>
    match r.mode with
    | .normal => .err .awaitNotSuspendable
    | .suspendable =>
      match r.input.at_path keyPath with
      | some k => .suspend ⟨st.ip + 1, st.stack, st.instrCount + 1⟩ ⟨k, topic⟩
      | none => .err .typeError

/-- Modelled from the spec: (sections 4.3, "Resource governance"): one
fetch-decode-execute step.  The instruction budget is a hard ceiling
checked before every instruction; exceeding it aborts with a
budget-exceeded error. -/
def step (r : Rvm) (st : MachState) : StepRes :=
  match r.maxInstructions with
  | some m =>
    if st.instrCount < m then
      match r.prog.instrs[st.ip]? with
      | some ins => stepInstr r st ins
      | none => .err .invalidInstrAddr
    else .err .budgetExceeded
  | none =>
    match r.prog.instrs[st.ip]? with
    | some ins => stepInstr r st ins
    | none => .err .invalidInstrAddr

/-- Modelled from the spec: (section 4.3): the execution loop, fuel-indexed
to stay total in the model; `outOfFuel` only reports that the model was
not run long enough, it is not a VM outcome. -/
def run (r : Rvm) : Nat → MachState → Outcome
  | 0, _ => .outOfFuel
  | fuel + 1, st =>
    match step r st with
    | .next st' => run r fuel st'
    | .done res => .done res
    | .suspend k d => .suspended k d
    | .err e => .error e

/-- Start state of an execution beginning at instruction address `addr`. -/
def initState (addr : Nat) : MachState := ⟨addr, [], 0⟩

/-- Run an execution from an instruction address with an empty stack and a
fresh instruction counter. -/
def Rvm.executeFrom (r : Rvm) (addr fuel : Nat) : Outcome :=
  run r fuel (initState addr)

/-- Find an entry-point-table row by dotted path. -/
def Program.findEntry (p : Program) (name : String) : Option EntryPoint :=
  p.entries.find? (fun e => e.path == name)

/-- Modelled from the spec: (`Rvm::execute_entry_point_by_name`): resolve a
dotted entry-point path and execute it. -/
def Rvm.execute_entry_point_by_name (r : Rvm) (name : String) (fuel : Nat) : Outcome :=
  match r.prog.findEntry name with
  | some e => r.executeFrom e.addr fuel
  | none => .error .entryNotFound

/-- Modelled from the spec: (`Rvm::execute_entry_point_by_index`): execute
the entry point at a table index. -/
def Rvm.execute_entry_point_by_index (r : Rvm) (i fuel : Nat) : Outcome :=
  match r.prog.entries[i]? with
  | some e => r.executeFrom e.addr fuel
  | none => .error .entryNotFound

/-- Modelled from the spec: (`Rvm::execute` in the bindings): execute the
program's first entry point. -/
def Rvm.execute (r : Rvm) (fuel : Nat) : Outcome :=
  r.execute_entry_point_by_index 0 fuel

/-- Modelled from the spec: (`Rvm::resume`): resume a captured continuation
with the value the host supplies for the pending await; the value is
pushed in place of the await call's result and execution continues at the
instruction after the await. -/
def Rvm.resume (r : Rvm) (k : MachState) (v : Val) (fuel : Nat) : Outcome :=
  run r fuel { k with stack := v :: k.stack }

/-- Status component of the externally visible execution state. -/
inductive ExecStatus where
  | running
  | suspendedAtAwait
  | completed
  | failed
deriving DecidableEq

/-- Modelled from the spec: (section 6, "Rvm external state query"): the
structured value `get_execution_state` exposes — a status plus the await
descriptor when suspended. -/
structure ExecStateView where
  status : ExecStatus
  await : Option AwaitDesc
deriving DecidableEq

/-- Modelled from the spec: (`Rvm::get_execution_state`): view of an
execution outcome. -/
def get_execution_state : Outcome → ExecStateView
  | .done _ => ⟨.completed, none⟩
  | .suspended _ d => ⟨.suspendedAtAwait, some d⟩
  | .error _ => ⟨.failed, none⟩
  | .outOfFuel => ⟨.running, none⟩

/-- Data document of the demo scenario in `rvm_tests.c` / `rvm_tests.cpp`:
`{"roles":{"alice":["admin","reader"]}}`. -/
def demoData : Val :=
  .obj [(.str "roles", .obj [(.str "alice", .arr [.str "admin", .str "reader"])])]

/-- Input document of the demo scenario: `{"user":"alice","actions":["read"]}`. -/
def demoInput : Val :=
  .obj [(.str "user", .str "alice"), (.str "actions", .arr [.str "read"])]

/-- Modelled from the spec: (section 4.1 lowering rules): the compiled form
of the module `package demo` with `default allow = false` and the rule
body `input.user == "alice"; some role in data.roles[input.user]; role ==
"admin"; count(input.actions) > 0`, under entry point `data.demo.allow`.
The conjunction is sequential with early exit to the default branch at
address 25; the `some role in …` quantifier is an iterate-and-test loop
(addresses 12–15) whose failed test backtracks to the iteration
instruction. -/
def demoProgram : Program :=
  { consts := [.str "alice", .str "roles", .str "user", .str "admin",
      .int 0, .bool true, .bool false, .str "actions"]
    instrs := [
      .loadInput, .const 2, .index 25, .const 0, .eq 25,
      .loadData, .const 1, .index 25,
      .loadInput, .const 2, .index 25,
      .index 25,
      .iterStart, .iterNext 25, .const 3, .eq 13, .popn 2,
      .loadInput, .const 7, .index 25, .count 25, .const 4, .gt 25,
      .const 5, .ret,
      .const 6, .ret]
    entries := [⟨"data.demo.allow", 0⟩] }

/-- VM of the demo scenario, with the demo program loaded and the demo
documents bound. -/
def demoRvm : Rvm :=
  { prog := demoProgram, data := demoData, input := demoInput,
    mode := .normal, strictBuiltinErrors := false, maxInstructions := none }

/-- Input document of the host-await scenario:
`{"account":{"id":"acct-1","active":true}}`. -/
def hostInput : Val :=
  .obj [(.str "account", .obj [(.str "id", .str "acct-1"), (.str "active", .bool true)])]

/-- Modelled from the spec: (sections 4.1, 4.3): the compiled form of the
host-await module of `rvm_tests.c` — `default allow := false` and the rule
body `input.account.active == true; details :=
__builtin_host_await(input.account.id, "account"); details.tier ==
"gold"`, under entry point `data.demo.allow`.  The await instruction at
address 7 names its key path `input.account.id` and its topic
`"account"`. -/
def hostProgram : Program :=
  { consts := [.str "account", .str "active", .bool true, .str "tier",
      .str "gold", .bool false]
    instrs := [
      .loadInput, .const 0, .index 14, .const 1, .index 14, .const 2, .eq 14,
      .hostAwait ["account", "id"] "account",
      .const 3, .index 14, .const 4, .eq 14,
      .const 2, .ret,
      .const 5, .ret]
    entries := [⟨"data.demo.allow", 0⟩] }

/-- VM of the host-await scenario, in suspendable execution mode. -/
def hostRvm : Rvm :=
  { prog := hostProgram, data := .obj [], input := hostInput,
    mode := .suspendable, strictBuiltinErrors := false, maxInstructions := none }

/-- Continuation the host-await scenario captures at suspension: next
instruction 8, empty operand stack, seven instructions executed. -/
def hostSuspension : MachState := ⟨8, [], 8⟩

/-- Value the host supplies on resume in the host-await scenario:
`{"tier":"gold"}`. -/
def hostResumeValue : Val := .obj [(.str "tier", .str "gold")]

/-- Modelled from the spec: (section 8, lenient vs strict): a compiled rule
without a default whose body evaluates `"a" + 1`, a builtin call with
mismatched argument types.  On builtin failure the body exits to address
4, which returns no value. -/
def mismatchProgram : Program :=
  { consts := [.str "a", .int 1]
    instrs := [.const 0, .const 1, .add 4, .ret, .retNone]
    entries := [⟨"data.demo.bad", 0⟩] }

/-- VM executing the mismatched-builtin program under a chosen
strict-builtin-errors policy. -/
def mismatchRvm (strict : Bool) : Rvm :=
  { prog := mismatchProgram, data := .obj [], input := .obj [],
    mode := .normal, strictBuiltinErrors := strict, maxInstructions := none }

/-- JSON rendering of a completed decision value, used to state
byte-identity of results. -/
def resultJson : Outcome → Option String
  | .done (some v) => some v.to_json
  | _ => none

/-- Well-formedness of a compiled program's constant operands: every
constant-push instruction names a constant-pool index in range.  The
compiler only emits indices of pooled constants. -/
def constsOk (p : Program) : Bool :=
  p.instrs.all fun ins =>
    match ins with
    | .const ci => decide (ci < p.consts.length)
    | _ => true

/-- Variant of a program in which the host-await call at instruction
address `i` is replaced by a push of the static constant `v` (appended to
the constant pool, leaving every existing constant index unchanged). -/
def awaitToConst (p : Program) (i : Nat) (v : Val) : Program :=
  { p with
    consts := p.consts ++ [v]
    instrs := p.instrs.set i (.const p.consts.length) }

theorem stepInstr_congr (r r' : Rvm) (st : MachState) (ins : Instr)
    (hp : r.prog = r'.prog) (hd : r.data = r'.data) (hi : r.input = r'.input)
    (hm : r.mode = r'.mode) (hs : r.strictBuiltinErrors = r'.strictBuiltinErrors) :
    stepInstr r st ins = stepInstr r' st ins := by
  obtain ⟨p, d, i, m, s, mx⟩ := r
  obtain ⟨p', d', i', m', s', mx'⟩ := r'
  simp only at hp hd hi hm hs
  subst hp; subst hd; subst hi; subst hm; subst hs
  cases ins <;> rfl

theorem stepInstr_next_count (r : Rvm) (st : MachState) (ins : Instr)
    (st' : MachState) (h : stepInstr r st ins = .next st') :
    st'.instrCount = st.instrCount + 1 := by
  cases ins <;> simp only [stepInstr] at h <;>
    (repeat' split at h) <;> simp_all <;> subst h <;> rfl

theorem step_next_count (r : Rvm) (st st' : MachState)
    (h : step r st = .next st') : st'.instrCount = st.instrCount + 1 := by
  unfold step at h
  repeat' split at h
  all_goals first
    | exact StepRes.noConfusion h
    | exact stepInstr_next_count r st _ st' h

theorem step_budget_agree (r : Rvm) (k : Nat) (st : MachState)
    (hnone : r.maxInstructions = none) (hc : st.instrCount < k) :
    step { r with maxInstructions := some k } st = step r st := by
  unfold step
  simp only [hnone, hc, if_true]
  cases hf : r.prog.instrs[st.ip]? with
  | none => rfl
  | some ins => exact stepInstr_congr _ r st ins rfl rfl rfl rfl rfl

theorem step_budget_exhausted (r : Rvm) (k : Nat) (st : MachState)
    (hc : ¬ st.instrCount < k) :
    step { r with maxInstructions := some k } st = .err .budgetExceeded := by
  unfold step
  simp [hc]

theorem run_budget_main (r : Rvm) (k : Nat) (hnone : r.maxInstructions = none) :
    ∀ j st, st.instrCount + j = k → run r j st = .outOfFuel →
      (∀ f, run { r with maxInstructions := some k } f st = .outOfFuel ∨
        run { r with maxInstructions := some k } f st = .error .budgetExceeded) ∧
      (∀ f, j + 1 ≤ f →
        run { r with maxInstructions := some k } f st = .error .budgetExceeded) := by
  intro j
  induction j with
  | zero =>
    intro st hcount _
    have hc : ¬ st.instrCount < k := by omega
    constructor
    · intro f
      cases f with
      | zero => exact Or.inl rfl
      | succ f' =>
        right
        rw [run, step_budget_exhausted r k st hc]
    · intro f hf
      cases f with
      | zero => omega
      | succ f' =>
        rw [run, step_budget_exhausted r k st hc]
  | succ j ih =>
    intro st hcount hrun
    rw [run] at hrun
    cases hstep : step r st with
    | next st1 =>
      rw [hstep] at hrun
      have hc : st.instrCount < k := by omega
      have hagree := step_budget_agree r k st hnone hc
      have hcount1 : st1.instrCount = st.instrCount + 1 := step_next_count r st st1 hstep
      have hih := ih st1 (by omega) hrun
      constructor
      · intro f
        cases f with
        | zero => exact Or.inl rfl
        | succ f' =>
          rw [run, hagree, hstep]
          exact hih.1 f'
      · intro f hf
        cases f with
        | zero => omega
        | succ f' =>
          rw [run, hagree, hstep]
          exact hih.2 f' (by omega)
    | done res => rw [hstep] at hrun; exact Outcome.noConfusion hrun
    | suspend kk d => rw [hstep] at hrun; exact Outcome.noConfusion hrun
    | err e => rw [hstep] at hrun; exact Outcome.noConfusion hrun

/-- C6: for a program, entry point and input needing more than `k`
instructions to complete (running without a budget for `k` steps finishes
neither with a result nor with a suspension nor with an error), installing
`set_max_instructions k` makes execution abort with a budget-exceeded
error and a `Failed` execution state, and execution never returns a
success or a suspension for any amount of fuel. -/
theorem budget_enforcement (r : Rvm) (k : Nat) (name : String)
    (hnone : r.maxInstructions = none)
    (hneeds : r.execute_entry_point_by_name name k = .outOfFuel) :
    (∀ f, ({ r with maxInstructions := some k } : Rvm).execute_entry_point_by_name name f
        = .outOfFuel ∨
      ({ r with maxInstructions := some k } : Rvm).execute_entry_point_by_name name f
        = .error .budgetExceeded) ∧
    ({ r with maxInstructions := some k } : Rvm).execute_entry_point_by_name name (k + 1)
      = .error .budgetExceeded ∧
    get_execution_state
      (({ r with maxInstructions := some k } : Rvm).execute_entry_point_by_name name (k + 1))
      = ⟨.failed, none⟩ := by
  cases hfind : r.prog.findEntry name with
  | none =>
    simp only [Rvm.execute_entry_point_by_name, hfind] at hneeds
    exact Outcome.noConfusion hneeds
  | some e =>
    have hfind' : ({ r with maxInstructions := some k } : Rvm).prog.findEntry name = some e :=
      hfind
    simp only [Rvm.execute_entry_point_by_name, Rvm.executeFrom, hfind] at hneeds
    have hmain := run_budget_main r k hnone k (initState e.addr) (by simp [initState]) hneeds
    simp only [Rvm.execute_entry_point_by_name, Rvm.executeFrom, hfind']
    refine ⟨hmain.1, ?_, ?_⟩
    · exact hmain.2 (k + 1) (by omega)
    · rw [hmain.2 (k + 1) (by omega)]
      rfl

/-- Witness for C6: the demo scenario needs more than ten instructions, so
with `max_instructions = 10` it fails with a budget-exceeded error in the
`Failed` state. -/
theorem budget_enforcement_witness :
    ({ demoRvm with maxInstructions := some 10 } : Rvm).execute_entry_point_by_name
        "data.demo.allow" 11 = .error .budgetExceeded ∧
    get_execution_state
      (({ demoRvm with maxInstructions := some 10 } : Rvm).execute_entry_point_by_name
        "data.demo.allow" 11) = ⟨.failed, none⟩ :=
  (budget_enforcement demoRvm 10 "data.demo.allow" rfl (by decide)).2

theorem stepInstr_suspend_inv (r : Rvm) (st : MachState) (ins : Instr)
    (k : MachState) (d : AwaitDesc) (h : stepInstr r st ins = .suspend k d) :
    (∃ kp tp, ins = .hostAwait kp tp) ∧
      k = ⟨st.ip + 1, st.stack, st.instrCount + 1⟩ := by
  cases ins <;> simp only [stepInstr] at h <;> (repeat' split at h) <;>
    first
      | exact StepRes.noConfusion h
      | (cases h; exact ⟨⟨_, _, rfl⟩, rfl⟩)

theorem step_suspend_inv (r : Rvm) (st k : MachState) (d : AwaitDesc)
    (h : step r st = .suspend k d) :
    (∃ kp tp, r.prog.instrs[st.ip]? = some (.hostAwait kp tp)) ∧
      k = ⟨st.ip + 1, st.stack, st.instrCount + 1⟩ ∧
      ∀ m, r.maxInstructions = some m → st.instrCount < m := by
  unfold step at h
  repeat' split at h
  all_goals first
    | exact StepRes.noConfusion h
    | (obtain ⟨⟨kp, tp, hins⟩, hk⟩ := stepInstr_suspend_inv r st _ k d h
       subst hins
       refine ⟨⟨kp, tp, by assumption⟩, hk, ?_⟩
       intro m hm
       simp_all)

theorem step_at_await (r : Rvm) (st : MachState) (kp : List String) (tp : String)
    (hmode : r.mode = .suspendable)
    (hins : r.prog.instrs[st.ip]? = some (.hostAwait kp tp)) :
    (∃ k d, step r st = .suspend k d) ∨ (∃ e, step r st = .err e) := by
  unfold step
  cases hmx : r.maxInstructions with
  | none =>
    simp only [hmx, hins, stepInstr, hmode]
    cases hp : r.input.at_path kp with
    | some key => simp only [hp]; exact Or.inl ⟨_, _, rfl⟩
    | none => simp only [hp]; exact Or.inr ⟨_, rfl⟩
  | some m =>
    by_cases hc : st.instrCount < m
    · simp only [hmx, hc, if_true, hins, stepInstr, hmode]
      cases hp : r.input.at_path kp with
      | some key => simp only [hp]; exact Or.inl ⟨_, _, rfl⟩
      | none => simp only [hp]; exact Or.inr ⟨_, rfl⟩
    · exact Or.inr ⟨.budgetExceeded, by simp [hmx, hc]⟩

theorem stepInstr_variant (r : Rvm) (i : Nat) (v : Val) (st : MachState) (ins : Instr)
    (hok : constsOk r.prog = true) (hmem : ins ∈ r.prog.instrs) :
    stepInstr { r with prog := awaitToConst r.prog i v } st ins = stepInstr r st ins := by
  cases ins
  case const ci =>
    have hci : ci < r.prog.consts.length := by
      have hall := List.all_eq_true.mp hok _ hmem
      simpa using hall
    simp only [stepInstr, awaitToConst]
    rw [List.getElem?_append_left hci]
  all_goals rfl

theorem step_variant_agree (r : Rvm) (i : Nat) (v : Val) (st : MachState)
    (hok : constsOk r.prog = true) (hip : st.ip ≠ i) :
    step { r with prog := awaitToConst r.prog i v } st = step r st := by
  have hfetch : (awaitToConst r.prog i v).instrs[st.ip]? = r.prog.instrs[st.ip]? := by
    unfold awaitToConst
    exact List.getElem?_set_ne (Ne.symm hip)
  unfold step
  cases hmx : r.maxInstructions with
  | none =>
    simp only [hmx, hfetch]
    cases hf : r.prog.instrs[st.ip]? with
    | none => rfl
    | some ins =>
      simp only [hf]
      exact stepInstr_variant r i v st ins hok (List.getElem?_mem hf)
  | some m =>
    by_cases hc : st.instrCount < m
    · simp only [hmx, hc, if_true, hfetch]
      cases hf : r.prog.instrs[st.ip]? with
      | none => rfl
      | some ins =>
        simp only [hf]
        exact stepInstr_variant r i v st ins hok (List.getElem?_mem hf)
    · simp [hmx, hc]

theorem run_mono_done (r : Rvm) :
    ∀ f g st res, run r f st = .done res → f ≤ g → run r g st = .done res := by
  intro f
  induction f with
  | zero => intro g st res h _; exact absurd h (by simp [run])
  | succ f ih =>
    intro g st res h hfg
    cases g with
    | zero => omega
    | succ g' =>
      rw [run] at h ⊢
      cases hstep : step r st <;> simp only [hstep] at h ⊢
      · exact ih g' _ res h (by omega)
      · exact h
      · exact h
      · exact h

theorem run_post (r : Rvm) (i : Nat) (kp : List String) (tp : String) (v : Val)
    (hmode : r.mode = .suspendable)
    (hok : constsOk r.prog = true)
    (hawait : r.prog.instrs[i]? = some (.hostAwait kp tp)) :
    ∀ f st res, run r f st = .done res →
      run { r with prog := awaitToConst r.prog i v } f st = .done res := by
  intro f
  induction f with
  | zero => intro st res h; exact absurd h (by simp [run])
  | succ f ih =>
    intro st res h
    rw [run] at h
    have hipne : ∀ ores, step r st = ores →
        (∃ st1, ores = .next st1) ∨ (∃ o, ores = .done o) → st.ip ≠ i := by
      intro ores hstep hshape heq
      have hawait' : r.prog.instrs[st.ip]? = some (.hostAwait kp tp) := by
        rw [heq]; exact hawait
      rcases step_at_await r st kp tp hmode hawait' with ⟨k, d, hs⟩ | ⟨e, hs⟩ <;>
        rw [hs] at hstep <;>
        rcases hshape with ⟨st1, rfl⟩ | ⟨o, rfl⟩ <;> exact StepRes.noConfusion hstep
    cases hstep : step r st with
    | next st1 =>
      simp only [hstep] at h
      have hne := hipne _ hstep (Or.inl ⟨st1, rfl⟩)
      rw [run, step_variant_agree r i v st hok hne, hstep]
      exact ih st1 res h
    | done o =>
      simp only [hstep] at h
      have hne := hipne _ hstep (Or.inr ⟨o, rfl⟩)
      rw [run, step_variant_agree r i v st hok hne, hstep]
      exact h
    | suspend k d => simp only [hstep] at h; exact Outcome.noConfusion h
    | err e => simp only [hstep] at h; exact Outcome.noConfusion h

theorem run_sim (r : Rvm) (i : Nat) (kp : List String) (tp : String) (v : Val)
    (hmode : r.mode = .suspendable)
    (hok : constsOk r.prog = true)
    (hawait : r.prog.instrs[i]? = some (.hostAwait kp tp))
    (honly : ∀ j kp' tp', r.prog.instrs[j]? = some (.hostAwait kp' tp') → j = i) :
    ∀ f1 st st' d res f2, run r f1 st = .suspended st' d →
      run r f2 { st' with stack := v :: st'.stack } = .done res →
      run { r with prog := awaitToConst r.prog i v } (f1 + f2) st = .done res := by
  intro f1
  induction f1 with
  | zero => intro st st' d res f2 h1 _; exact absurd h1 (by simp [run])
  | succ f1 ih =>
    intro st st' d res f2 h1 h2
    rw [run] at h1
    cases hstep : step r st with
    | next st1 =>
      simp only [hstep] at h1
      have hne : st.ip ≠ i := by
        intro heq
        have hawait' : r.prog.instrs[st.ip]? = some (.hostAwait kp tp) := by
          rw [heq]; exact hawait
        rcases step_at_await r st kp tp hmode hawait' with ⟨k, d', hs⟩ | ⟨e, hs⟩ <;>
          rw [hs] at hstep <;> exact StepRes.noConfusion hstep
      rw [Nat.add_right_comm, run, step_variant_agree r i v st hok hne, hstep]
      exact ih st1 st' d res f2 h1 h2
    | suspend k dd =>
      simp only [hstep] at h1
      injection h1 with hk hd
      obtain ⟨⟨kp', tp', hfetch⟩, hkst, hbud⟩ := step_suspend_inv r st _ _ hstep
      have hipi : st.ip = i := honly st.ip kp' tp' hfetch
      have hilt : i < r.prog.instrs.length := by
        by_contra hlt
        rw [List.getElem?_eq_none (Nat.le_of_not_lt hlt)] at hawait
        exact Option.noConfusion hawait
      have hfetchv : (awaitToConst r.prog i v).instrs[st.ip]? =
          some (.const r.prog.consts.length) := by
        unfold awaitToConst
        rw [hipi]
        exact List.getElem?_set_self hilt
      have hconstv : (awaitToConst r.prog i v).consts[r.prog.consts.length]? = some v := by
        unfold awaitToConst
        exact List.getElem?_concat_length _ _
      have hstepv : step { r with prog := awaitToConst r.prog i v } st =
          .next ⟨st.ip + 1, v :: st.stack, st.instrCount + 1⟩ := by
        unfold step
        cases hmx : r.maxInstructions with
        | none => simp only [hmx, hfetchv, stepInstr, hconstv]
        | some m =>
          have hc : st.instrCount < m := hbud m hmx
          simp only [hmx, hc, if_true, hfetchv, stepInstr, hconstv]
      rw [Nat.add_right_comm, run, hstepv]
      have hres : run { r with prog := awaitToConst r.prog i v } f2
          { st' with stack := v :: st'.stack } = .done res :=
        run_post r i kp tp v hmode hok hawait f2 _ res h2
      have hstate : ({ st' with stack := v :: st'.stack } : MachState) =
          ⟨st.ip + 1, v :: st.stack, st.instrCount + 1⟩ := by
        rw [← hk, hkst]
      rw [hstate] at hres
      exact run_mono_done _ f2 (f1 + f2) _ res hres (by omega)
    | done o => simp only [hstep] at h1; exact Outcome.noConfusion h1
    | err e => simp only [hstep] at h1; exact Outcome.noConfusion h1

/-- C3: for a policy whose only host-await call would receive value `v`
from the host, executing in suspendable mode to the suspension and then
resuming with `v` produces the same final result as executing to
completion the variant of the policy in which the host-await call is
replaced by the static constant `v`. -/
theorem suspend_resume_equiv (r : Rvm) (i : Nat) (kp : List String) (tp : String)
    (v : Val) (name : String) (f1 f2 : Nat) (st' : MachState) (d : AwaitDesc)
    (res : Option Val)
    (hmode : r.mode = .suspendable)
    (hok : constsOk r.prog = true)
    (hawait : r.prog.instrs[i]? = some (.hostAwait kp tp))
    (honly : ∀ j kp' tp', r.prog.instrs[j]? = some (.hostAwait kp' tp') → j = i)
    (hsusp : r.execute_entry_point_by_name name f1 = .suspended st' d)
    (hres : r.resume st' v f2 = .done res) :
    ({ r with prog := awaitToConst r.prog i v } : Rvm).execute_entry_point_by_name
      name (f1 + f2) = .done res := by
  cases hfind : r.prog.findEntry name with
  | none =>
    simp only [Rvm.execute_entry_point_by_name, hfind] at hsusp
    exact Outcome.noConfusion hsusp
  | some e =>
    simp only [Rvm.execute_entry_point_by_name, Rvm.executeFrom, hfind] at hsusp
    have hfind' : ({ r with prog := awaitToConst r.prog i v } : Rvm).prog.findEntry name =
        some e := hfind
    simp only [Rvm.execute_entry_point_by_name, Rvm.executeFrom, hfind']
    exact run_sim r i kp tp v hmode hok hawait honly f1 (initState e.addr) st' d res f2
      hsusp hres

/-- Witness for C3: the host-await scenario — replacing the await at
address 7 of the host program by the constant `{"tier":"gold"}` and
executing to completion yields `true`, the same result as suspending and
resuming with that value. -/
theorem suspend_resume_equiv_witness :
    ({ hostRvm with prog := awaitToConst hostProgram 7 hostResumeValue } : Rvm).execute_entry_point_by_name
      "data.demo.allow" (100 + 100) = .done (some (.bool true)) := by
  refine suspend_resume_equiv hostRvm 7 ["account", "id"] "account" hostResumeValue
    "data.demo.allow" 100 100 hostSuspension ⟨.str "acct-1", "account"⟩
    (some (.bool true)) rfl (by decide) (by decide) ?_ (by decide) (by decide)
  intro j kp' tp' h
  simp only [hostRvm] at h
  by_cases hj : j < 16
  · interval_cases j <;> simp_all [hostProgram]
  · exfalso
    have hlen : hostProgram.instrs.length ≤ j := by
      have h16 : (16 : Nat) ≤ j := by omega
      simpa [hostProgram] using h16
    rw [List.getElem?_eq_none hlen] at h
    exact Option.noConfusion h

/-- C2: compiling the demo module against the demo data with entry point
`data.demo.allow` and executing it in an `Rvm` with the demo input yields
the decision value `true`. -/
theorem demo_allow_executes_true :
    demoRvm.execute_entry_point_by_name "data.demo.allow" 100 =
      .done (some (.bool true)) := by
  decide

/-- C4: the host-await rule, executed in suspendable mode, suspends on
first execution; `get_execution_state` reports an await descriptor with
topic `"account"` and the input's account id `"acct-1"` as key; resuming
with `{"tier":"gold"}` completes execution with result `true`. -/
theorem host_await_suspends_and_resumes_true :
    hostRvm.execute 100 = .suspended hostSuspension ⟨.str "acct-1", "account"⟩ ∧
    get_execution_state (hostRvm.execute 100) =
      ⟨.suspendedAtAwait, some ⟨.str "acct-1", "account"⟩⟩ ∧
    hostRvm.resume hostSuspension hostResumeValue 100 =
      .done (some (.bool true)) := by
  refine ⟨by decide, by decide, by decide⟩

/-- C5: for one program and input whose execution calls a builtin with
mismatched argument types, lenient mode yields an undefined result for the
affected rule (no value, not an error), while strict mode aborts the same
execution with a fatal execution error. -/
theorem mismatch_lenient_undefined_strict_fatal :
    (mismatchRvm false).execute 100 = .done none ∧
    (mismatchRvm true).execute 100 = .error .builtinError := by
  refine ⟨by decide, by decide⟩

/-- C8: executing the same program with the same data and input documents
and the same execution configuration twice yields identical outcomes and
byte-identical JSON renderings of the result value. -/
theorem execute_deterministic (r1 r2 : Rvm)
    (hp : r1.prog = r2.prog) (hd : r1.data = r2.data) (hi : r1.input = r2.input)
    (hm : r1.mode = r2.mode) (hs : r1.strictBuiltinErrors = r2.strictBuiltinErrors)
    (hx : r1.maxInstructions = r2.maxInstructions) (name : String) (fuel : Nat) :
    r1.execute_entry_point_by_name name fuel = r2.execute_entry_point_by_name name fuel ∧
    resultJson (r1.execute_entry_point_by_name name fuel) =
      resultJson (r2.execute_entry_point_by_name name fuel) := by
  have : r1 = r2 := by
    cases r1; cases r2; simp_all
  subst this
  exact ⟨rfl, rfl⟩

/-- Witness for C8: the determinism theorem applied to two copies of the
demo scenario VM. -/
theorem execute_deterministic_witness :
    demoRvm.execute_entry_point_by_name "data.demo.allow" 100 =
      demoRvm.execute_entry_point_by_name "data.demo.allow" 100 ∧
    resultJson (demoRvm.execute_entry_point_by_name "data.demo.allow" 100) =
      resultJson (demoRvm.execute_entry_point_by_name "data.demo.allow" 100) :=
  execute_deterministic demoRvm demoRvm rfl rfl rfl rfl rfl rfl "data.demo.allow" 100

/-- C9: object keys stay unique under structural equality — inserting
under a structurally equal key overwrites the existing binding in place
(the object does not grow), uniqueness is preserved, and a subsequent
lookup of that key returns the newly inserted value. -/
theorem object_insert_overwrites (kvs : List (Val × Val)) (k v : Val)
    (h : KeysUnique kvs) :
    (Val.obj kvs).object_insert k v = some (.obj (kvInsert kvs k v)) ∧
    KeysUnique (kvInsert kvs k v) ∧
    (Val.obj (kvInsert kvs k v)).object_get k = some v ∧
    (k ∈ kvKeys kvs → (kvInsert kvs k v).length = kvs.length) := by
  refine ⟨rfl, keysUnique_kvInsert kvs k v h, ?_, fun hm => kvInsert_length_of_mem kvs k v hm⟩
  simpa [Val.object_get] using kvLookup_kvInsert_self kvs k v

/-- Witness for C9: overwriting the `"flag"` binding of
`{"flag": false, "answer": 42}` with `true`. -/
theorem object_insert_overwrites_witness :
    (Val.obj [(.str "flag", .bool false), (.str "answer", .int 42)]).object_insert
        (.str "flag") (.bool true) =
      some (.obj (kvInsert [(.str "flag", .bool false), (.str "answer", .int 42)]
        (.str "flag") (.bool true))) ∧
    KeysUnique (kvInsert [(.str "flag", .bool false), (.str "answer", .int 42)]
      (.str "flag") (.bool true)) ∧
    (Val.obj (kvInsert [(.str "flag", .bool false), (.str "answer", .int 42)]
        (.str "flag") (.bool true))).object_get (.str "flag") = some (.bool true) ∧
    (Val.str "flag" ∈ kvKeys [(.str "flag", .bool false), (.str "answer", .int 42)] →
      (kvInsert [(.str "flag", .bool false), (.str "answer", .int 42)]
        (.str "flag") (.bool true)).length =
        [((Val.str "flag"), (Val.bool false)), ((Val.str "answer"), (Val.int 42))].length) :=
  object_insert_overwrites [(.str "flag", .bool false), (.str "answer", .int 42)]
    (.str "flag") (.bool true) (by decide)

/-- C10: cloning the value owned by a handle allocates a distinct handle
whose JSON rendering equals the original's, and subsequent mutation
through either handle leaves the value owned by the other handle
unchanged. -/
theorem clone_is_deep_copy (s : Store) (a : Nat) (v : Val)
    (h : s.read a = some v) :
    ∃ s' a', s.clone a = some (s', a') ∧ a' ≠ a ∧
      s'.to_json a' = s'.to_json a ∧
      (∀ k w s'', s'.object_insert_at a' k w = some s'' → s''.read a = s'.read a) ∧
      (∀ k w s'', s'.object_insert_at a k w = some s'' → s''.read a' = s'.read a') := by
  have ha : a < s.cells.length := by
    by_contra hlt
    have : s.cells[a]? = none := List.getElem?_eq_none (Nat.le_of_not_lt hlt)
    rw [Store.read, this] at h
    exact Option.noConfusion h
  refine ⟨⟨s.cells ++ [v]⟩, s.cells.length, ?_, Nat.ne_of_gt ha, ?_, ?_, ?_⟩
  · rw [Store.clone, h]; rfl
  · have h1 : (⟨s.cells ++ [v]⟩ : Store).read s.cells.length = some v := by
      simp [Store.read, List.getElem?_concat_length]
    have h2 : (⟨s.cells ++ [v]⟩ : Store).read a = some v := by
      rw [Store.read, List.getElem?_append_left ha]
      exact h
    rw [Store.to_json, Store.to_json, h1, h2]
  · intro k w s'' hm
    simp only [Store.object_insert_at, Option.bind_eq_some, Option.map_eq_some'] at hm
    obtain ⟨o, _, o', _, hset⟩ := hm
    subst hset
    rw [Store.read, Store.read]
    exact List.getElem?_set_ne (Nat.ne_of_gt ha)
  · intro k w s'' hm
    simp only [Store.object_insert_at, Option.bind_eq_some, Option.map_eq_some'] at hm
    obtain ⟨o, _, o', _, hset⟩ := hm
    subst hset
    rw [Store.read, Store.read]
    exact List.getElem?_set_ne (Nat.ne_of_lt ha)

/-- Witness for C10: cloning the object `{"nested": [true, false]}` held
in a one-cell store. -/
theorem clone_is_deep_copy_witness :
    ∃ s' a',
      (Store.mk [.obj [(.str "nested", .arr [.bool true, .bool false])]]).clone 0 =
        some (s', a') ∧ a' ≠ 0 ∧
      s'.to_json a' = s'.to_json 0 ∧
      (∀ k w s'', s'.object_insert_at a' k w = some s'' → s''.read 0 = s'.read 0) ∧
      (∀ k w s'', s'.object_insert_at 0 k w = some s'' → s''.read a' = s'.read a') :=
  clone_is_deep_copy (Store.mk [.obj [(.str "nested", .arr [.bool true, .bool false])]])
    0 (.obj [(.str "nested", .arr [.bool true, .bool false])]) (by decide)

/-- Modelled from the spec: (sections 4.2, 7): the failure taxonomy of
binary deserialization — truncated buffers and otherwise malformed
encodings are both `DeserializeError`s, kept apart from the partial
flag. -/
inductive DeserializeError where
  | truncated
  | malformed
deriving DecidableEq

/-- Decoder for a run of `n` character tokens; each token must be a valid
Unicode scalar value. -/
def decodeChars : Nat → List Nat → Except DeserializeError (List Char × List Nat)
  | 0, input => .ok ([], input)
  | _ + 1, [] => .error .truncated
  | n + 1, t :: rest =>
    if h : t.isValidChar then
      match decodeChars n rest with
      | .ok (cs, rest') => .ok (Char.ofNatAux t h :: cs, rest')
      | .error e => .error e
    else .error .malformed

/-- Length-counted string encoding: the character count followed by one
token per character. -/
def encodeString (s : String) : List Nat :=
  s.data.length :: s.data.map Char.toNat

/-- Decoder matching `encodeString`. -/
def decodeString : List Nat → Except DeserializeError (String × List Nat)
  | [] => .error .truncated
  | n :: rest =>
    match decodeChars n rest with
    | .ok (cs, rest') => .ok (String.mk cs, rest')
    | .error e => .error e

theorem char_toNat_isValidChar (c : Char) : Nat.isValidChar c.toNat := c.valid

theorem toNat_ofNatAux (n : Nat) (h : n.isValidChar) :
    (Char.ofNatAux n h).toNat = n := rfl

theorem ofNatAux_char_toNat (c : Char) (h : Nat.isValidChar c.toNat) :
    Char.ofNatAux c.toNat h = c := by
  have hofn := Char.ofNat_toNat c
  unfold Char.ofNat at hofn
  rw [dif_pos h] at hofn
  exact hofn

theorem decodeChars_encode (cs : List Char) (r : List Nat) :
    decodeChars cs.length (cs.map Char.toNat ++ r) = .ok (cs, r) := by
  induction cs with
  | nil => rfl
  | cons c cs ih =>
    have hv := char_toNat_isValidChar c
    show decodeChars (cs.length + 1) (c.toNat :: (cs.map Char.toNat ++ r)) = .ok (c :: cs, r)
    simp only [decodeChars]
    rw [dif_pos hv]
    rw [ih]
    simp [ofNatAux_char_toNat]

theorem decodeChars_sound : ∀ n input cs r, decodeChars n input = .ok (cs, r) →
    input = cs.map Char.toNat ++ r ∧ cs.length = n := by
  intro n
  induction n with
  | zero =>
    intro input cs r h
    simp only [decodeChars, Except.ok.injEq, Prod.mk.injEq] at h
    obtain ⟨h1, h2⟩ := h
    subst h1; subst h2
    exact ⟨rfl, rfl⟩
  | succ n ih =>
    intro input cs r h
    cases input with
    | nil => exact absurd h (by simp [decodeChars])
    | cons t rest =>
      simp only [decodeChars] at h
      split at h
      · cases hd : decodeChars n rest with
        | error e => rw [hd] at h; exact Except.noConfusion h
        | ok p =>
          obtain ⟨cs', rest'⟩ := p
          rw [hd] at h
          simp only [Except.ok.injEq, Prod.mk.injEq] at h
          obtain ⟨h1, h2⟩ := h
          subst h1; subst h2
          obtain ⟨hin, hlen⟩ := ih rest cs' rest' hd
          subst hin
          refine ⟨?_, by simp [hlen]⟩
          simp [toNat_ofNatAux]
      · exact Except.noConfusion h

theorem decodeString_encode (s : String) (r : List Nat) :
    decodeString (encodeString s ++ r) = .ok (s, r) := by
  obtain ⟨cs⟩ := s
  show decodeString (cs.length :: (cs.map Char.toNat ++ r)) = .ok (⟨cs⟩, r)
  simp only [decodeString, decodeChars_encode]

theorem decodeString_sound (input : List Nat) (s : String) (r : List Nat)
    (h : decodeString input = .ok (s, r)) : input = encodeString s ++ r := by
  cases input with
  | nil => exact absurd h (by simp [decodeString])
  | cons n rest =>
    simp only [decodeString] at h
    cases hd : decodeChars n rest with
    | error e => rw [hd] at h; exact Except.noConfusion h
    | ok p =>
      obtain ⟨cs, rest'⟩ := p
      rw [hd] at h
      simp only [Except.ok.injEq, Prod.mk.injEq] at h
      obtain ⟨h1, h2⟩ := h
      subst h1; subst h2
      obtain ⟨hin, hlen⟩ := decodeChars_sound n rest cs rest' hd
      subst hin
      simp [encodeString, hlen]

/-- Two-token integer encoding: a sign token then the magnitude. -/
def encodeInt (i : Int) : List Nat :=
  if i < 0 then [1, (-i).toNat] else [0, i.toNat]

/-- Decoder matching `encodeInt`; a negative zero is rejected so that the
encoding is canonical. -/
def decodeInt : List Nat → Except DeserializeError (Int × List Nat)
  | 0 :: m :: rest => .ok ((m : Int), rest)
  | 1 :: m :: rest => if m = 0 then .error .malformed else .ok (-(m : Int), rest)
  | _ :: _ :: _ => .error .malformed
  | _ => .error .truncated

theorem decodeInt_encode (i : Int) (r : List Nat) :
    decodeInt (encodeInt i ++ r) = .ok (i, r) := by
  unfold encodeInt
  by_cases hi : i < 0
  · rw [if_pos hi]
    have hm : (-i).toNat ≠ 0 := by omega
    simp only [List.cons_append, List.nil_append, decodeInt, hm, if_false]
    have : ((((-i).toNat : Int))) = -i := by omega
    rw [this]
    simp
  · rw [if_neg hi]
    simp only [List.cons_append, List.nil_append, decodeInt]
    have : ((i.toNat : Int)) = i := by omega
    rw [this]

theorem decodeInt_sound (input : List Nat) (i : Int) (r : List Nat)
    (h : decodeInt input = .ok (i, r)) : input = encodeInt i ++ r := by
  rcases input with _ | ⟨t1, _ | ⟨t2, rest⟩⟩
  · exact absurd h (by simp [decodeInt])
  · exact absurd h (by simp [decodeInt])
  · match t1, h with
    | 0, h =>
      simp only [decodeInt, Except.ok.injEq, Prod.mk.injEq] at h
      obtain ⟨h1, h2⟩ := h
      subst h1; subst h2
      have hnn : ¬ ((t2 : Int) < 0) := by omega
      have htn : ((t2 : Int)).toNat = t2 := by omega
      simp [encodeInt, hnn, htn]
    | 1, h =>
      simp only [decodeInt] at h
      split at h
      · exact Except.noConfusion h
      · simp only [Except.ok.injEq, Prod.mk.injEq] at h
        obtain ⟨h1, h2⟩ := h
        subst h1; subst h2
        have ht2 : ¬ (0 : Nat) = t2 := by omega
        have hneg : (-(t2 : Int)) < 0 := by omega
        simp only [encodeInt, if_pos hneg]
        have : ((- -(t2 : Int)).toNat) = t2 := by omega
        rw [this]
        rfl
    | n + 2, h =>
      exact absurd h (by simp [decodeInt])

/-- Length-counted sequence encoding: the element count followed by the
concatenated element encodings. -/
def encodeListWith (enc : α → List Nat) (xs : List α) : List Nat :=
  xs.length :: (xs.map enc).flatten

/-- Decoder for `n` consecutive elements. -/
def decodeCount (dec : List Nat → Except DeserializeError (α × List Nat)) :
    Nat → List Nat → Except DeserializeError (List α × List Nat)
  | 0, input => .ok ([], input)
  | n + 1, input =>
    match dec input with
    | .ok (a, rest) =>
      match decodeCount dec n rest with
      | .ok (as, rest') => .ok (a :: as, rest')
      | .error e => .error e
    | .error e => .error e

/-- Decoder matching `encodeListWith`. -/
def decodeListWith (dec : List Nat → Except DeserializeError (α × List Nat)) :
    List Nat → Except DeserializeError (List α × List Nat)
  | [] => .error .truncated
  | n :: rest => decodeCount dec n rest

theorem decodeCount_encode (dec : List Nat → Except DeserializeError (α × List Nat))
    (enc : α → List Nat) (hrt : ∀ a r, dec (enc a ++ r) = .ok (a, r)) :
    ∀ xs r, decodeCount dec xs.length ((xs.map enc).flatten ++ r) = .ok (xs, r) := by
  intro xs
  induction xs with
  | nil => intro r; rfl
  | cons x xs ih =>
    intro r
    show decodeCount dec (xs.length + 1) ((enc x :: xs.map enc).flatten ++ r) = .ok (x :: xs, r)
    rw [List.flatten_cons, List.append_assoc]
    simp only [decodeCount, hrt, ih]

theorem decodeCount_sound (dec : List Nat → Except DeserializeError (α × List Nat))
    (enc : α → List Nat)
    (hsnd : ∀ input a r, dec input = .ok (a, r) → input = enc a ++ r) :
    ∀ n input xs r, decodeCount dec n input = .ok (xs, r) →
      input = (xs.map enc).flatten ++ r ∧ xs.length = n := by
  intro n
  induction n with
  | zero =>
    intro input xs r h
    simp only [decodeCount, Except.ok.injEq, Prod.mk.injEq] at h
    obtain ⟨h1, h2⟩ := h
    subst h1; subst h2
    exact ⟨rfl, rfl⟩
  | succ n ih =>
    intro input xs r h
    simp only [decodeCount] at h
    cases hd : dec input with
    | error e => simp only [hd] at h; exact Except.noConfusion h
    | ok p =>
      obtain ⟨a, rest⟩ := p
      simp only [hd] at h
      cases hd2 : decodeCount dec n rest with
      | error e => simp only [hd2] at h; exact Except.noConfusion h
      | ok q =>
        obtain ⟨as, rest'⟩ := q
        simp only [hd2] at h
        simp only [Except.ok.injEq, Prod.mk.injEq] at h
        obtain ⟨h1, h2⟩ := h
        subst h1; subst h2
        obtain ⟨hin, hlen⟩ := ih rest as rest' hd2
        subst hin
        rw [hsnd input a _ hd]
        simp [hlen, List.flatten_cons, List.append_assoc]

theorem decodeListWith_encode (dec : List Nat → Except DeserializeError (α × List Nat))
    (enc : α → List Nat) (hrt : ∀ a r, dec (enc a ++ r) = .ok (a, r))
    (xs : List α) (r : List Nat) :
    decodeListWith dec (encodeListWith enc xs ++ r) = .ok (xs, r) := by
  simp only [encodeListWith, List.cons_append, decodeListWith]
  exact decodeCount_encode dec enc hrt xs r

theorem decodeListWith_sound (dec : List Nat → Except DeserializeError (α × List Nat))
    (enc : α → List Nat)
    (hsnd : ∀ input a r, dec input = .ok (a, r) → input = enc a ++ r)
    (input : List Nat) (xs : List α) (r : List Nat)
    (h : decodeListWith dec input = .ok (xs, r)) :
    input = encodeListWith enc xs ++ r := by
  cases input with
  | nil => exact absurd h (by simp [decodeListWith])
  | cons n rest =>
    obtain ⟨hin, hlen⟩ := decodeCount_sound dec enc hsnd n rest xs r h
    subst hin
    simp [encodeListWith, hlen]

mutual
/-- Modelled from the spec: (section 4.2): binary encoding of one pooled
value — a tag token followed by the variant payload; containers are
length-counted. -/
def encodeVal : Val → List Nat
  | .null => [0]
  | .bool b => [1, cond b 1 0]
  | .int i => 2 :: encodeInt i
  | .str s => 3 :: encodeString s
  | .arr xs => 4 :: xs.length :: encodeValList xs
  | .obj kvs => 5 :: kvs.length :: encodeKVList kvs
  | .set xs => 6 :: xs.length :: encodeValList xs

def encodeValList : List Val → List Nat
  | [] => []
  | v :: t => encodeVal v ++ encodeValList t

def encodeKVList : List (Val × Val) → List Nat
  | [] => []
  | (k, v) :: t => encodeVal k ++ encodeVal v ++ encodeKVList t
end

mutual
/-- Decoder matching `encodeVal`, fuel-indexed so the nested recursion
into container payloads stays total; the fuel only ever runs out on
hostile inputs shorter than the nesting they announce. -/
def decodeVal : Nat → List Nat → Except DeserializeError (Val × List Nat)
  | 0, _ => .error .truncated
  | _ + 1, [] => .error .truncated
  | f + 1, tag :: rest =>
    match tag with
    | 0 => .ok (.null, rest)
    | 1 =>
      match rest with
      | 0 :: r => .ok (.bool false, r)
      | 1 :: r => .ok (.bool true, r)
      | _ :: _ => .error .malformed
      | [] => .error .truncated
    | 2 =>
      match decodeInt rest with
      | .ok (i, r) => .ok (.int i, r)
      | .error e => .error e
    | 3 =>
      match decodeString rest with
      | .ok (s, r) => .ok (.str s, r)
      | .error e => .error e
    | 4 =>
      match rest with
      | [] => .error .truncated
      | n :: r =>
        match decodeValN f n r with
        | .ok (xs, r') => .ok (.arr xs, r')
        | .error e => .error e
    | 5 =>
      match rest with
      | [] => .error .truncated
      | n :: r =>
        match decodeKVN f n r with
        | .ok (kvs, r') => .ok (.obj kvs, r')
        | .error e => .error e
    | 6 =>
      match rest with
      | [] => .error .truncated
      | n :: r =>
        match decodeValN f n r with
        | .ok (xs, r') => .ok (.set xs, r')
        | .error e => .error e
    | _ + 7 => .error .malformed
termination_by f input => (f, 0, 0)

def decodeValN : Nat → Nat → List Nat → Except DeserializeError (List Val × List Nat)
  | _, 0, input => .ok ([], input)
  | f, n + 1, input =>
    match decodeVal f input with
    | .ok (v, rest) =>
      match decodeValN f n rest with
      | .ok (vs, rest') => .ok (v :: vs, rest')
      | .error e => .error e
    | .error e => .error e
termination_by f n input => (f, n, 1)

def decodeKVN : Nat → Nat → List Nat → Except DeserializeError (List (Val × Val) × List Nat)
  | _, 0, input => .ok ([], input)
  | f, n + 1, input =>
    match decodeVal f input with
    | .ok (k, rest) =>
      match decodeVal f rest with
      | .ok (v, rest') =>
        match decodeKVN f n rest' with
        | .ok (kvs, rest'') => .ok ((k, v) :: kvs, rest'')
        | .error e => .error e
      | .error e => .error e
    | .error e => .error e
termination_by f n input => (f, n, 1)
end

theorem encodeVal_length_pos (v : Val) : 1 ≤ (encodeVal v).length := by
  cases v <;> simp [encodeVal]

theorem encodeVal_le_encodeValList (v : Val) (xs : List Val) (h : v ∈ xs) :
    (encodeVal v).length ≤ (encodeValList xs).length := by
  induction xs with
  | nil => cases h
  | cons x t ih =>
    rcases List.mem_cons.mp h with rfl | hm
    · simp [encodeValList]
    · simp only [encodeValList, List.length_append]
      have := ih hm
      omega

theorem encodeVal_le_encodeKVList (kv : Val × Val) (kvs : List (Val × Val))
    (h : kv ∈ kvs) :
    (encodeVal kv.1).length ≤ (encodeKVList kvs).length ∧
      (encodeVal kv.2).length ≤ (encodeKVList kvs).length := by
  induction kvs with
  | nil => cases h
  | cons x t ih =>
    obtain ⟨k, v⟩ := x
    rcases List.mem_cons.mp h with rfl | hm
    · simp only [encodeKVList, List.length_append]
      omega
    · obtain ⟨h1, h2⟩ := ih hm
      simp only [encodeKVList, List.length_append]
      omega

theorem decodeVal_rt_all : ∀ f,
    (∀ v r, (encodeVal v).length ≤ f → decodeVal f (encodeVal v ++ r) = .ok (v, r)) ∧
    (∀ xs r, (∀ v ∈ xs, (encodeVal v).length ≤ f) →
      decodeValN f xs.length (encodeValList xs ++ r) = .ok (xs, r)) ∧
    (∀ kvs r,
      (∀ kv ∈ kvs, (encodeVal kv.1).length ≤ f ∧ (encodeVal kv.2).length ≤ f) →
      decodeKVN f kvs.length (encodeKVList kvs ++ r) = .ok (kvs, r)) := by
  intro f
  induction f with
  | zero =>
    refine ⟨?_, ?_, ?_⟩
    · intro v r hle
      have := encodeVal_length_pos v
      omega
    · intro xs r hcond
      cases xs with
      | nil => simp [encodeValList, decodeValN]
      | cons v t =>
        have := hcond v (List.mem_cons_self v t)
        have := encodeVal_length_pos v
        omega
    · intro kvs r hcond
      cases kvs with
      | nil => simp [encodeKVList, decodeKVN]
      | cons kv t =>
        have := (hcond kv (List.mem_cons_self kv t)).1
        have := encodeVal_length_pos kv.1
        omega
  | succ f ihf =>
    obtain ⟨ihA, ihB, ihC⟩ := ihf
    have hA : ∀ v r, (encodeVal v).length ≤ f + 1 →
        decodeVal (f + 1) (encodeVal v ++ r) = .ok (v, r) := by
      intro v r hle
      cases v with
      | null => simp [encodeVal, decodeVal]
      | bool b => cases b <;> simp [encodeVal, decodeVal]
      | int i => simp [encodeVal, decodeVal, decodeInt_encode]
      | str s => simp [encodeVal, decodeVal, decodeString_encode]
      | arr xs =>
        have hsub : ∀ v ∈ xs, (encodeVal v).length ≤ f := by
          intro v hv
          have h1 := encodeVal_le_encodeValList v xs hv
          simp only [encodeVal, List.length_cons] at hle
          omega
        simp [encodeVal, decodeVal, ihB xs r hsub]
      | obj kvs =>
        have hsub : ∀ kv ∈ kvs,
            (encodeVal kv.1).length ≤ f ∧ (encodeVal kv.2).length ≤ f := by
          intro kv hkv
          have h1 := encodeVal_le_encodeKVList kv kvs hkv
          simp only [encodeVal, List.length_cons] at hle
          omega
        simp [encodeVal, decodeVal, ihC kvs r hsub]
      | set xs =>
        have hsub : ∀ v ∈ xs, (encodeVal v).length ≤ f := by
          intro v hv
          have h1 := encodeVal_le_encodeValList v xs hv
          simp only [encodeVal, List.length_cons] at hle
          omega
        simp [encodeVal, decodeVal, ihB xs r hsub]
    have hB : ∀ xs r, (∀ v ∈ xs, (encodeVal v).length ≤ f + 1) →
        decodeValN (f + 1) xs.length (encodeValList xs ++ r) = .ok (xs, r) := by
      intro xs
      induction xs with
      | nil => intro r _; simp [encodeValList, decodeValN]
      | cons v t ih =>
        intro r hcond
        show decodeValN (f + 1) (t.length + 1)
          ((encodeVal v ++ encodeValList t) ++ r) = .ok (v :: t, r)
        rw [List.append_assoc]
        have h1 := hA v (encodeValList t ++ r) (hcond v (List.mem_cons_self v t))
        have h2 := ih r (fun w hw => hcond w (List.mem_cons_of_mem v hw))
        simp only [decodeValN, h1, h2]
    have hC : ∀ kvs r,
        (∀ kv ∈ kvs, (encodeVal kv.1).length ≤ f + 1 ∧ (encodeVal kv.2).length ≤ f + 1) →
        decodeKVN (f + 1) kvs.length (encodeKVList kvs ++ r) = .ok (kvs, r) := by
      intro kvs
      induction kvs with
      | nil => intro r _; simp [encodeKVList, decodeKVN]
      | cons kv t ih =>
        obtain ⟨k, v⟩ := kv
        intro r hcond
        show decodeKVN (f + 1) (t.length + 1)
          ((encodeVal k ++ encodeVal v ++ encodeKVList t) ++ r) = .ok ((k, v) :: t, r)
        rw [List.append_assoc, List.append_assoc]
        have hk := (hcond (k, v) (List.mem_cons_self _ t)).1
        have hv := (hcond (k, v) (List.mem_cons_self _ t)).2
        have h1 := hA k (encodeVal v ++ (encodeKVList t ++ r)) hk
        have h2 := hA v (encodeKVList t ++ r) hv
        have h3 := ih r (fun w hw => hcond w (List.mem_cons_of_mem _ hw))
        simp only [decodeKVN, h1, h2, h3]
    exact ⟨hA, hB, hC⟩

theorem decodeVal_sound_all : ∀ f,
    (∀ input v r, decodeVal f input = .ok (v, r) → input = encodeVal v ++ r) ∧
    (∀ n input xs r, decodeValN f n input = .ok (xs, r) →
      input = encodeValList xs ++ r ∧ xs.length = n) ∧
    (∀ n input kvs r, decodeKVN f n input = .ok (kvs, r) →
      input = encodeKVList kvs ++ r ∧ kvs.length = n) := by
  intro f
  induction f with
  | zero =>
    have hval : ∀ input v r, decodeVal 0 input = .ok (v, r) →
        input = encodeVal v ++ r := by
      intro input v r h
      exact absurd h (by simp [decodeVal])
    refine ⟨hval, ?_, ?_⟩
    · intro n input xs r h
      cases n with
      | zero =>
        simp only [decodeValN, Except.ok.injEq, Prod.mk.injEq] at h
        obtain ⟨h1, h2⟩ := h
        subst h1; subst h2
        exact ⟨rfl, rfl⟩
      | succ n =>
        simp only [decodeValN] at h
        cases hd : decodeVal 0 input with
        | error e => simp only [hd] at h; exact Except.noConfusion h
        | ok p => exact absurd hd (by simp [decodeVal])
    · intro n input kvs r h
      cases n with
      | zero =>
        simp only [decodeKVN, Except.ok.injEq, Prod.mk.injEq] at h
        obtain ⟨h1, h2⟩ := h
        subst h1; subst h2
        exact ⟨rfl, rfl⟩
      | succ n =>
        simp only [decodeKVN] at h
        cases hd : decodeVal 0 input with
        | error e => simp only [hd] at h; exact Except.noConfusion h
        | ok p => exact absurd hd (by simp [decodeVal])
  | succ f ihf =>
    obtain ⟨ihA, ihB, ihC⟩ := ihf
    have hA : ∀ input v r, decodeVal (f + 1) input = .ok (v, r) →
        input = encodeVal v ++ r := by
      intro input v r h
      cases input with
      | nil => exact absurd h (by simp [decodeVal])
      | cons tag rest =>
        simp only [decodeVal.eq_def] at h
        split at h
        · simp only [Except.ok.injEq, Prod.mk.injEq] at h
          obtain ⟨h1, h2⟩ := h
          subst h1; subst h2
          simp [encodeVal]
        · split at h
          · simp only [Except.ok.injEq, Prod.mk.injEq] at h
            obtain ⟨h1, h2⟩ := h
            subst h1; subst h2
            simp_all [encodeVal]
          · simp only [Except.ok.injEq, Prod.mk.injEq] at h
            obtain ⟨h1, h2⟩ := h
            subst h1; subst h2
            simp_all [encodeVal]
          · exact Except.noConfusion h
          · exact Except.noConfusion h
        · cases hd : decodeInt rest with
          | error e => simp only [hd] at h; exact Except.noConfusion h
          | ok p =>
            obtain ⟨i, r'⟩ := p
            simp only [hd] at h
            simp only [Except.ok.injEq, Prod.mk.injEq] at h
            obtain ⟨h1, h2⟩ := h
            subst h1; subst h2
            rw [decodeInt_sound rest i r' hd]
            simp [encodeVal]
        · cases hd : decodeString rest with
          | error e => simp only [hd] at h; exact Except.noConfusion h
          | ok p =>
            obtain ⟨s, r'⟩ := p
            simp only [hd] at h
            simp only [Except.ok.injEq, Prod.mk.injEq] at h
            obtain ⟨h1, h2⟩ := h
            subst h1; subst h2
            rw [decodeString_sound rest s r' hd]
            simp [encodeVal]
        · split at h
          · exact Except.noConfusion h
          · rename_i n2 r2
            cases hd : decodeValN f n2 r2 with
            | error e => simp only [hd] at h; exact Except.noConfusion h
            | ok p =>
              obtain ⟨xs, r'⟩ := p
              simp only [hd] at h
              simp only [Except.ok.injEq, Prod.mk.injEq] at h
              obtain ⟨h1, h2⟩ := h
              subst h1; subst h2
              obtain ⟨hin, hlen⟩ := ihB _ _ xs r' hd
              subst hin
              subst hlen
              simp [encodeVal]
        · split at h
          · exact Except.noConfusion h
          · rename_i n2 r2
            cases hd : decodeKVN f n2 r2 with
            | error e => simp only [hd] at h; exact Except.noConfusion h
            | ok p =>
              obtain ⟨kvs, r'⟩ := p
              simp only [hd] at h
              simp only [Except.ok.injEq, Prod.mk.injEq] at h
              obtain ⟨h1, h2⟩ := h
              subst h1; subst h2
              obtain ⟨hin, hlen⟩ := ihC _ _ kvs r' hd
              subst hin
              subst hlen
              simp [encodeVal]
        · split at h
          · exact Except.noConfusion h
          · rename_i n2 r2
            cases hd : decodeValN f n2 r2 with
            | error e => simp only [hd] at h; exact Except.noConfusion h
            | ok p =>
              obtain ⟨xs, r'⟩ := p
              simp only [hd] at h
              simp only [Except.ok.injEq, Prod.mk.injEq] at h
              obtain ⟨h1, h2⟩ := h
              subst h1; subst h2
              obtain ⟨hin, hlen⟩ := ihB _ _ xs r' hd
              subst hin
              subst hlen
              simp [encodeVal]
        · exact Except.noConfusion h
    have hB : ∀ n input xs r, decodeValN (f + 1) n input = .ok (xs, r) →
        input = encodeValList xs ++ r ∧ xs.length = n := by
      intro n
      induction n with
      | zero =>
        intro input xs r h
        simp only [decodeValN, Except.ok.injEq, Prod.mk.injEq] at h
        obtain ⟨h1, h2⟩ := h
        subst h1; subst h2
        exact ⟨rfl, rfl⟩
      | succ n ih =>
        intro input xs r h
        simp only [decodeValN] at h
        cases hd : decodeVal (f + 1) input with
        | error e => simp only [hd] at h; exact Except.noConfusion h
        | ok p =>
          obtain ⟨v, rest⟩ := p
          simp only [hd] at h
          cases hd2 : decodeValN (f + 1) n rest with
          | error e => simp only [hd2] at h; exact Except.noConfusion h
          | ok q =>
            obtain ⟨vs, rest'⟩ := q
            simp only [hd2] at h
            simp only [Except.ok.injEq, Prod.mk.injEq] at h
            obtain ⟨h1, h2⟩ := h
            subst h1; subst h2
            obtain ⟨hin, hlen⟩ := ih rest vs rest' hd2
            subst hin
            rw [hA input v _ hd]
            simp [encodeValList, hlen, List.append_assoc]
    have hC : ∀ n input kvs r, decodeKVN (f + 1) n input = .ok (kvs, r) →
        input = encodeKVList kvs ++ r ∧ kvs.length = n := by
      intro n
      induction n with
      | zero =>
        intro input kvs r h
        simp only [decodeKVN, Except.ok.injEq, Prod.mk.injEq] at h
        obtain ⟨h1, h2⟩ := h
        subst h1; subst h2
        exact ⟨rfl, rfl⟩
      | succ n ih =>
        intro input kvs r h
        simp only [decodeKVN] at h
        cases hd : decodeVal (f + 1) input with
        | error e => simp only [hd] at h; exact Except.noConfusion h
        | ok p =>
          obtain ⟨k, rest⟩ := p
          simp only [hd] at h
          cases hd2 : decodeVal (f + 1) rest with
          | error e => simp only [hd2] at h; exact Except.noConfusion h
          | ok q =>
            obtain ⟨v, rest'⟩ := q
            simp only [hd2] at h
            cases hd3 : decodeKVN (f + 1) n rest' with
            | error e => simp only [hd3] at h; exact Except.noConfusion h
            | ok w =>
              obtain ⟨kvs', rest''⟩ := w
              simp only [hd3] at h
              simp only [Except.ok.injEq, Prod.mk.injEq] at h
              obtain ⟨h1, h2⟩ := h
              subst h1; subst h2
              obtain ⟨hin, hlen⟩ := ih rest' kvs' rest'' hd3
              subst hin
              rw [hA input k _ hd, hA rest v _ hd2]
              simp [encodeKVList, hlen, List.append_assoc]
    exact ⟨hA, hB, hC⟩

/-- Decoder for one pooled value, with enough fuel for any input. -/
def decodeValTop (input : List Nat) : Except DeserializeError (Val × List Nat) :=
  decodeVal (input.length + 1) input

theorem decodeValTop_encode (v : Val) (r : List Nat) :
    decodeValTop (encodeVal v ++ r) = .ok (v, r) := by
  unfold decodeValTop
  refine (decodeVal_rt_all _).1 v r ?_
  simp only [List.length_append]
  omega

theorem decodeValTop_sound (input : List Nat) (v : Val) (r : List Nat)
    (h : decodeValTop input = .ok (v, r)) : input = encodeVal v ++ r :=
  (decodeVal_sound_all _).1 input v r h

/-- Modelled from the spec: (section 4.2): binary encoding of one
instruction — a tag token, the numeric operand when there is one, and for
the host-await builtin its key path and topic. -/
def encodeInstr : Instr → List Nat
  | .const ci => [0, ci]
  | .loadInput => [1]
  | .loadData => [2]
  | .index fj => [3, fj]
  | .eq fj => [4, fj]
  | .gt fj => [5, fj]
  | .add fj => [6, fj]
  | .count fj => [7, fj]
  | .iterStart => [8]
  | .iterNext e => [9, e]
  | .popn n => [10, n]
  | .jump t => [11, t]
  | .ret => [12]
  | .retNone => [13]
  | .hostAwait kp tp => 14 :: (encodeListWith encodeString kp ++ encodeString tp)

/-- Decoder matching `encodeInstr`. -/
def decodeInstr : List Nat → Except DeserializeError (Instr × List Nat)
  | [] => .error .truncated
  | tag :: rest =>
    match tag with
    | 0 =>
      match rest with
      | x :: r => .ok (.const x, r)
      | [] => .error .truncated
    | 1 => .ok (.loadInput, rest)
    | 2 => .ok (.loadData, rest)
    | 3 =>
      match rest with
      | x :: r => .ok (.index x, r)
      | [] => .error .truncated
    | 4 =>
      match rest with
      | x :: r => .ok (.eq x, r)
      | [] => .error .truncated
    | 5 =>
      match rest with
      | x :: r => .ok (.gt x, r)
      | [] => .error .truncated
    | 6 =>
      match rest with
      | x :: r => .ok (.add x, r)
      | [] => .error .truncated
    | 7 =>
      match rest with
      | x :: r => .ok (.count x, r)
      | [] => .error .truncated
    | 8 => .ok (.iterStart, rest)
    | 9 =>
      match rest with
      | x :: r => .ok (.iterNext x, r)
      | [] => .error .truncated
    | 10 =>
      match rest with
      | x :: r => .ok (.popn x, r)
      | [] => .error .truncated
    | 11 =>
      match rest with
      | x :: r => .ok (.jump x, r)
      | [] => .error .truncated
    | 12 => .ok (.ret, rest)
    | 13 => .ok (.retNone, rest)
    | 14 =>
      match decodeListWith decodeString rest with
      | .ok (kp, rest') =>
        match decodeString rest' with
        | .ok (tp, rest'') => .ok (.hostAwait kp tp, rest'')
        | .error e => .error e
      | .error e => .error e
    | _ + 15 => .error .malformed

theorem decodeInstr_encode (ins : Instr) (r : List Nat) :
    decodeInstr (encodeInstr ins ++ r) = .ok (ins, r) := by
  cases ins <;>
    simp [encodeInstr, decodeInstr, List.append_assoc,
      decodeListWith_encode decodeString encodeString decodeString_encode,
      decodeString_encode]

theorem decodeInstr_sound (input : List Nat) (ins : Instr) (r : List Nat)
    (h : decodeInstr input = .ok (ins, r)) : input = encodeInstr ins ++ r := by
  cases input with
  | nil => exact absurd h (by simp [decodeInstr])
  | cons tag rest =>
    simp only [decodeInstr] at h
    split at h
    all_goals first
      | exact Except.noConfusion h
      | (simp only [Except.ok.injEq, Prod.mk.injEq] at h
         obtain ⟨h1, h2⟩ := h
         subst h1; subst h2
         simp [encodeInstr])
      | ((split at h) <;>
          first
            | (simp only [Except.ok.injEq, Prod.mk.injEq] at h
               obtain ⟨h1, h2⟩ := h
               subst h1; subst h2
               simp [encodeInstr])
            | exact Except.noConfusion h)
      | (cases hd : decodeListWith decodeString rest with
         | error e => simp only [hd] at h; exact Except.noConfusion h
         | ok p =>
           obtain ⟨kp, rest'⟩ := p
           simp only [hd] at h
           cases hd2 : decodeString rest' with
           | error e => simp only [hd2] at h; exact Except.noConfusion h
           | ok q =>
             obtain ⟨tp, rest''⟩ := q
             simp only [hd2] at h
             simp only [Except.ok.injEq, Prod.mk.injEq] at h
             obtain ⟨h1, h2⟩ := h
             subst h1; subst h2
             rw [decodeListWith_sound decodeString encodeString decodeString_sound
               rest kp _ hd, decodeString_sound rest' tp _ hd2]
             simp [encodeInstr, List.append_assoc])

/-- Modelled from the spec: (section 4.2): binary encoding of one
entry-point-table row — the dotted path then the instruction address. -/
def encodeEntry (e : EntryPoint) : List Nat :=
  encodeString e.path ++ [e.addr]

/-- Decoder matching `encodeEntry`. -/
def decodeEntry (input : List Nat) : Except DeserializeError (EntryPoint × List Nat) :=
  match decodeString input with
  | .ok (s, rest) =>
    match rest with
    | a :: r => .ok (⟨s, a⟩, r)
    | [] => .error .truncated
  | .error e => .error e

theorem decodeEntry_encode (e : EntryPoint) (r : List Nat) :
    decodeEntry (encodeEntry e ++ r) = .ok (e, r) := by
  obtain ⟨path, addr⟩ := e
  simp only [encodeEntry, List.append_assoc, List.cons_append, List.nil_append]
  simp [decodeEntry, decodeString_encode]

theorem decodeEntry_sound (input : List Nat) (e : EntryPoint) (r : List Nat)
    (h : decodeEntry input = .ok (e, r)) : input = encodeEntry e ++ r := by
  simp only [decodeEntry] at h
  cases hd : decodeString input with
  | error e2 => simp only [hd] at h; exact Except.noConfusion h
  | ok p =>
    obtain ⟨s, rest⟩ := p
    simp only [hd] at h
    cases rest with
    | nil => simp only [] at h; exact Except.noConfusion h
    | cons a r2 =>
      simp only [Except.ok.injEq, Prod.mk.injEq] at h
      obtain ⟨h1, h2⟩ := h
      subst h1; subst h2
      rw [decodeString_sound input s _ hd]
      simp [encodeEntry, List.append_assoc]

/-- Length prefix of one binary section. -/
def withLen (bs : List Nat) : List Nat := bs.length :: bs

/-- Constant-pool section bytes of a program. -/
def constsBytes (p : Program) : List Nat := encodeListWith encodeVal p.consts

/-- Instruction-array section bytes of a program. -/
def instrsBytes (p : Program) : List Nat := encodeListWith encodeInstr p.instrs

/-- Entry-point-table section bytes of a program. -/
def entriesBytes (p : Program) : List Nat := encodeListWith encodeEntry p.entries

/-- Modelled from the spec: (sections 4.2, 6): the versioned binary format
— a fixed header (magic, format version, completeness flag) followed by
the length-prefixed constant pool, instruction array and entry-point
table. -/
def serializeWithFlag (fl : Bool) (p : Program) : List Nat :=
  82 :: 86 :: 1 :: (cond fl 1 0) ::
    (withLen (constsBytes p) ++ (withLen (instrsBytes p) ++ withLen (entriesBytes p)))

/-- Modelled from the spec: (`Program::serialize_binary`): serialize a
complete compiled program. -/
def Program.serialize_binary (p : Program) : List Nat := serializeWithFlag false p

/-- Decoder for one length-prefixed section: reads the length, demands
that many bytes be present, and demands that the section decoder consume
the section exactly. -/
def decodeSection (dec : List Nat → Except DeserializeError (α × List Nat)) :
    List Nat → Except DeserializeError (α × List Nat)
  | [] => .error .truncated
  | len :: rest =>
    if len ≤ rest.length then
      match dec (rest.take len) with
      | .ok (a, leftover) =>
        if leftover = [] then .ok (a, rest.drop len) else .error .malformed
      | .error e => .error e
    else .error .truncated

/-- Modelled from the spec: (`Program::deserialize_binary`, section 4.2):
parse the header (rejecting bad magic, version or flag), the three
length-prefixed sections, and the remaining buffer, returning the program
and its is-partial flag. -/
def decodeProgramCore (input : List Nat) :
    Except DeserializeError ((Program × Bool) × List Nat) :=
  match input with
  | m0 :: m1 :: ver :: flg :: rest =>
    if m0 = 82 ∧ m1 = 86 ∧ ver = 1 then
      if flg = 0 ∨ flg = 1 then
        match decodeSection (decodeListWith decodeValTop) rest with
        | .ok (consts, rest1) =>
          match decodeSection (decodeListWith decodeInstr) rest1 with
          | .ok (instrs, rest2) =>
            match decodeSection (decodeListWith decodeEntry) rest2 with
            | .ok (entries, rest3) => .ok ((⟨consts, instrs, entries⟩, flg == 1), rest3)
            | .error e => .error e
          | .error e => .error e
        | .error e => .error e
      else .error .malformed
    else .error .malformed
  | _ => .error .truncated

/-- Modelled from the spec: (`Program::deserialize_binary`): a buffer
deserializes only when it is consumed exactly. -/
def Program.deserialize_binary (input : List Nat) :
    Except DeserializeError (Program × Bool) :=
  match decodeProgramCore input with
  | .ok ((p, fl), leftover) => if leftover = [] then .ok (p, fl) else .error .malformed
  | .error e => .error e

theorem decodeSection_encode (dec : List Nat → Except DeserializeError (α × List Nat))
    (enc : α → List Nat) (hrt : ∀ a r, dec (enc a ++ r) = .ok (a, r))
    (a : α) (r : List Nat) :
    decodeSection dec (withLen (enc a) ++ r) = .ok (a, r) := by
  simp only [withLen, List.cons_append, decodeSection]
  have hle : (enc a).length ≤ (enc a ++ r).length := by simp
  rw [if_pos hle, List.take_left]
  have hdec : dec (enc a) = .ok (a, []) := by
    have := hrt a []
    rwa [List.append_nil] at this
  simp [hdec, List.drop_left]

theorem decodeSection_sound (dec : List Nat → Except DeserializeError (α × List Nat))
    (enc : α → List Nat)
    (hsnd : ∀ input a r, dec input = .ok (a, r) → input = enc a ++ r)
    (input : List Nat) (a : α) (r : List Nat)
    (h : decodeSection dec input = .ok (a, r)) :
    input = withLen (enc a) ++ r := by
  cases input with
  | nil => exact absurd h (by simp [decodeSection])
  | cons len rest =>
    simp only [decodeSection] at h
    split at h
    · rename_i hle
      cases hd : dec (rest.take len) with
      | error e => simp only [hd] at h; exact Except.noConfusion h
      | ok p =>
        obtain ⟨a', leftover⟩ := p
        simp only [hd] at h
        split at h
        · rename_i hleft
          simp only [Except.ok.injEq, Prod.mk.injEq] at h
          obtain ⟨h1, h2⟩ := h
          subst hleft
          have htake : rest.take len = enc a' := by
            have := hsnd _ _ _ hd
            rwa [List.append_nil] at this
          have hlen : len = (enc a').length := by
            have := List.length_take len rest
            rw [htake] at this
            omega
          have hsplit : rest = enc a' ++ rest.drop len := by
            conv_lhs => rw [← List.take_append_drop len rest]
            rw [htake]
          rw [← h1, ← h2, withLen, List.cons_append, ← hlen, ← hsplit]
        · exact Except.noConfusion h
    · exact Except.noConfusion h

theorem decodeProgramCore_encode (fl : Bool) (p : Program) (r : List Nat) :
    decodeProgramCore (serializeWithFlag fl p ++ r) = .ok ((p, fl), r) := by
  have hc := decodeSection_encode (decodeListWith decodeValTop)
    (encodeListWith encodeVal)
    (fun a rr => decodeListWith_encode decodeValTop encodeVal decodeValTop_encode a rr)
  have hi := decodeSection_encode (decodeListWith decodeInstr)
    (encodeListWith encodeInstr)
    (fun a rr => decodeListWith_encode decodeInstr encodeInstr decodeInstr_encode a rr)
  have he := decodeSection_encode (decodeListWith decodeEntry)
    (encodeListWith encodeEntry)
    (fun a rr => decodeListWith_encode decodeEntry encodeEntry decodeEntry_encode a rr)
  obtain ⟨consts, instrs, entries⟩ := p
  cases fl <;>
    simp [serializeWithFlag, decodeProgramCore, List.cons_append, List.append_assoc,
      constsBytes, instrsBytes, entriesBytes, hc, hi, he]

theorem decodeProgramCore_sound (input : List Nat) (p : Program) (fl : Bool)
    (r : List Nat) (h : decodeProgramCore input = .ok ((p, fl), r)) :
    input = serializeWithFlag fl p ++ r := by
  rcases input with _ | ⟨m0, _ | ⟨m1, _ | ⟨ver, _ | ⟨flg, rest⟩⟩⟩⟩
  · exact absurd h (by simp [decodeProgramCore])
  · exact absurd h (by simp [decodeProgramCore])
  · exact absurd h (by simp [decodeProgramCore])
  · exact absurd h (by simp [decodeProgramCore])
  · simp only [decodeProgramCore] at h
    split at h
    · rename_i hmagic
      obtain ⟨hm0, hm1, hver⟩ := hmagic
      subst hm0; subst hm1; subst hver
      split at h
      · rename_i hflg
        cases hd1 : decodeSection (decodeListWith decodeValTop) rest with
        | error e => simp only [hd1] at h; exact Except.noConfusion h
        | ok p1 =>
          obtain ⟨consts, rest1⟩ := p1
          simp only [hd1] at h
          cases hd2 : decodeSection (decodeListWith decodeInstr) rest1 with
          | error e => simp only [hd2] at h; exact Except.noConfusion h
          | ok p2 =>
            obtain ⟨instrs, rest2⟩ := p2
            simp only [hd2] at h
            cases hd3 : decodeSection (decodeListWith decodeEntry) rest2 with
            | error e => simp only [hd3] at h; exact Except.noConfusion h
            | ok p3 =>
              obtain ⟨entries, rest3⟩ := p3
              simp only [hd3] at h
              simp only [Except.ok.injEq, Prod.mk.injEq] at h
              obtain ⟨⟨hp, hfl⟩, hr⟩ := h
              subst hp; subst hfl; subst hr
              have e1 := decodeSection_sound (decodeListWith decodeValTop)
                (encodeListWith encodeVal)
                (fun i a rr => decodeListWith_sound decodeValTop encodeVal
                  decodeValTop_sound i a rr) rest consts rest1 hd1
              have e2 := decodeSection_sound (decodeListWith decodeInstr)
                (encodeListWith encodeInstr)
                (fun i a rr => decodeListWith_sound decodeInstr encodeInstr
                  decodeInstr_sound i a rr) rest1 instrs rest2 hd2
              have e3 := decodeSection_sound (decodeListWith decodeEntry)
                (encodeListWith encodeEntry)
                (fun i a rr => decodeListWith_sound decodeEntry encodeEntry
                  decodeEntry_sound i a rr) rest2 entries rest3 hd3
              subst e1; subst e2; subst e3
              rcases hflg with hflg | hflg <;> subst hflg <;>
                simp [serializeWithFlag, constsBytes, instrsBytes, entriesBytes,
                  List.cons_append, List.append_assoc]
      · exact Except.noConfusion h
    · exact Except.noConfusion h

theorem deserialize_sound (input : List Nat) (p : Program) (fl : Bool)
    (h : Program.deserialize_binary input = .ok (p, fl)) :
    input = serializeWithFlag fl p := by
  unfold Program.deserialize_binary at h
  cases hd : decodeProgramCore input with
  | error e => simp only [hd] at h; exact Except.noConfusion h
  | ok q =>
    obtain ⟨⟨p', fl'⟩, leftover⟩ := q
    simp only [hd] at h
    split at h
    · rename_i hleft
      simp only [Except.ok.injEq, Prod.mk.injEq] at h
      obtain ⟨h1, h2⟩ := h
      subst hleft
      have := decodeProgramCore_sound input p' fl' [] hd
      rw [List.append_nil] at this
      rw [← h1, ← h2]
      exact this
    · exact Except.noConfusion h

theorem deserialize_roundtrip (fl : Bool) (p : Program) :
    Program.deserialize_binary (serializeWithFlag fl p) = .ok (p, fl) := by
  unfold Program.deserialize_binary
  have hcore : decodeProgramCore (serializeWithFlag fl p) = .ok ((p, fl), []) := by
    have := decodeProgramCore_encode fl p []
    rwa [List.append_nil] at this
  simp [hcore]

/-- C1: deserializing a serialized compiled program succeeds with
`is_partial == false` and yields a behaviorally equivalent program — any
deserialized program executes every entry point identically to the
original for every data document, input document and execution
configuration. -/
theorem serialize_deserialize_roundtrip (p : Program) :
    Program.deserialize_binary (Program.serialize_binary p) = .ok (p, false) ∧
    ∀ q d inp mode strict mi name fuel,
      Program.deserialize_binary (Program.serialize_binary p) = .ok (q, false) →
      Rvm.execute_entry_point_by_name ⟨q, d, inp, mode, strict, mi⟩ name fuel =
        Rvm.execute_entry_point_by_name ⟨p, d, inp, mode, strict, mi⟩ name fuel := by
  have h1 : Program.deserialize_binary (Program.serialize_binary p) = .ok (p, false) :=
    deserialize_roundtrip false p
  refine ⟨h1, ?_⟩
  intro q d inp mode strict mi name fuel hq
  rw [h1] at hq
  simp only [Except.ok.injEq, Prod.mk.injEq] at hq
  obtain ⟨hpq, -⟩ := hq
  subst hpq
  rfl

/-- Smallest compiled program used to witness the serialization claims. -/
def tinyProgram : Program := ⟨[], [.retNone], [⟨"data.tiny", 0⟩]⟩

/-- Witness for C1: the round-trip theorem applied to the tiny program,
its hypothesis discharged by the round-trip equation itself. -/
theorem serialize_deserialize_roundtrip_witness :
    Rvm.execute_entry_point_by_name ⟨tinyProgram, .obj [], .obj [], .normal, false, none⟩
      "data.tiny" 5 =
    Rvm.execute_entry_point_by_name ⟨tinyProgram, .obj [], .obj [], .normal, false, none⟩
      "data.tiny" 5 :=
  (serialize_deserialize_roundtrip tinyProgram).2 tinyProgram (.obj []) (.obj [])
    .normal false none "data.tiny" 5 (serialize_deserialize_roundtrip tinyProgram).1

/-- C7: truncated buffers (strict leading pieces of a valid serialization)
deserialize to a `DeserializeError`; any buffer that deserializes at all
is exactly the canonical encoding carrying its flag, so a program marked
partial arises only from a structurally well-formed partial encoding,
never from corruption; and corrupting the constant-section length prefix
of a serialized program makes deserialization fail. -/
theorem deserialize_rejects_corruption :
    (∀ p b t, t ≠ [] → b ++ t = Program.serialize_binary p →
      ∃ e, Program.deserialize_binary b = .error e) ∧
    (∀ b q fl, Program.deserialize_binary b = .ok (q, fl) → b = serializeWithFlag fl q) ∧
    (∀ p x, x ≠ (constsBytes p).length →
      ∃ e, Program.deserialize_binary ((Program.serialize_binary p).set 4 x) = .error e) := by
  refine ⟨?_, ?_, ?_⟩
  · intro p b t hne hbt
    cases hy : Program.deserialize_binary b with
    | error e => exact ⟨e, rfl⟩
    | ok qfl =>
      exfalso
      obtain ⟨q, fl⟩ := qfl
      have hb := deserialize_sound b q fl hy
      have e1 : decodeProgramCore (b ++ t) = .ok ((q, fl), t) := by
        rw [hb]
        exact decodeProgramCore_encode fl q t
      have e2 : decodeProgramCore (b ++ t) = .ok ((p, false), []) := by
        rw [hbt]
        have := decodeProgramCore_encode false p []
        rwa [List.append_nil] at this
      rw [e1] at e2
      simp only [Except.ok.injEq, Prod.mk.injEq] at e2
      exact hne e2.2
  · intro b q fl h
    exact deserialize_sound b q fl h
  · intro p x hx
    cases hy : Program.deserialize_binary ((Program.serialize_binary p).set 4 x) with
    | error e => exact ⟨e, rfl⟩
    | ok qfl =>
      exfalso
      obtain ⟨q, fl⟩ := qfl
      have hb := deserialize_sound _ q fl hy
      have hset : (Program.serialize_binary p).set 4 x =
          82 :: 86 :: 1 :: 0 :: x ::
            (constsBytes p ++ (withLen (instrsBytes p) ++ withLen (entriesBytes p))) := by
        simp [Program.serialize_binary, serializeWithFlag, withLen, List.cons_append]
      rw [hset] at hb
      simp only [serializeWithFlag, withLen, List.cons_append, List.cons.injEq] at hb
      obtain ⟨-, -, -, hflag, hx1, hcat⟩ := hb
      have hdec1 : decodeListWith decodeValTop
          (constsBytes p ++ (withLen (instrsBytes p) ++ withLen (entriesBytes p))) =
          .ok (p.consts, withLen (instrsBytes p) ++ withLen (entriesBytes p)) :=
        decodeListWith_encode decodeValTop encodeVal decodeValTop_encode p.consts _
      have hdec2 : decodeListWith decodeValTop
          (constsBytes q ++ (withLen (instrsBytes q) ++ withLen (entriesBytes q))) =
          .ok (q.consts, withLen (instrsBytes q) ++ withLen (entriesBytes q)) :=
        decodeListWith_encode decodeValTop encodeVal decodeValTop_encode q.consts _
      simp only [withLen, List.cons_append] at hdec1 hdec2
      rw [hcat] at hdec1
      rw [hdec2] at hdec1
      simp only [Except.ok.injEq, Prod.mk.injEq] at hdec1
      obtain ⟨hqc, -⟩ := hdec1
      apply hx
      rw [hx1]
      simp [constsBytes, hqc]

/-- Witness for C7: the first three bytes of the tiny program's
serialization form a truncated buffer, and deserializing them fails. -/
theorem deserialize_rejects_corruption_witness :
    ∃ e, Program.deserialize_binary ((Program.serialize_binary tinyProgram).take 3) =
      .error e :=
  deserialize_rejects_corruption.1 tinyProgram
    ((Program.serialize_binary tinyProgram).take 3)
    ((Program.serialize_binary tinyProgram).drop 3)
    (by decide)
    (List.take_append_drop 3 _)

end Regorus
